import Mathlib

/-!
Capability bitstrings and orchestrator discovery of go-livepeer.

A shallow embedding of the capability codec and of the capability deriver
(`core/capabilities.go`) and of the selection of orchestrators
(`discovery/discovery.go`):

* Go `int` capability ids are integers, `uint64` words are natural numbers
  that the operations keep below `2 ^ 64`;
* a slice is a list, a nil pointer is `none`;
* a function that may stop with a run-time panic (index out of range, nil
  dereference) returns an `Option`, `none` being the panic;
* a function that returns `(value, error)` returns a pair, a nil error being
  `none`; an early `return` out of a loop is an `Except.error`;
* the goroutines of `GetOrchestrators` and its `select` are the sequence of
  what reaches the collector, one arrival for each iteration of its loop.
-/

namespace Livepeer

/-! ## Data model -/

/-- Go `type Capability int`. -/
abbrev Capability := Int

/-- Go `type CapabilityString []uint64`. -/
abbrev CapabilityString := List Nat

/-- Go `type Constraints struct{}`. -/
structure Constraints where
  deriving DecidableEq, Repr

/-- Go `type Capabilities struct { bitstring; constraints }`. -/
structure Capabilities where
  bitstring : CapabilityString
  constraints : Constraints
  deriving DecidableEq, Repr

/-- Go `net.Capabilities`: the advertisement on the wire, of which the code
reads the field `Bitstring` only. -/
structure NetCapabilities where
  Bitstring : CapabilityString
  deriving DecidableEq, Repr

/-- The number of values of a `uint64`. -/
def wordSize : Nat := 2 ^ 64

/-! ### The capability constants: `iota - 2` starts the block at `-2` -/

def Capability_Invalid : Capability := -2
def Capability_Unused : Capability := -1
def Capability_H264 : Capability := 0
def Capability_MPEGTS : Capability := 1
def Capability_MP4 : Capability := 2
def Capability_FractionalFramerates : Capability := 3
def Capability_StorageDirect : Capability := 4
def Capability_StorageS3 : Capability := 5
def Capability_StorageGCS : Capability := 6

/-- The two error values of the package. -/
inductive CapError where
  | capFormatConv
  | capStorageConv
  deriving DecidableEq, Repr

/-! ## `NewCapabilityString` -/

/-- The inner loop `for len(capStr) <= int_index { capStr = append(capStr, 0) }`,
run for at most `fuel` iterations. -/
def grow : Nat → CapabilityString → Nat → CapabilityString
  | 0, capStr, _ => capStr
  | fuel + 1, capStr, int_index =>
    if capStr.length ≤ int_index then grow fuel (capStr ++ [0]) int_index else capStr

/-- One iteration of the outer loop of `NewCapabilityString`, on the id `v`.
Go's `/` and `%` on `int` truncate toward zero; the loop `grow` needs at most
`int_index + 1` iterations (`grow_eq`), after which `int_index` is in range
(`grow_length`), so that the assignment to `capStr[int_index]` cannot panic. -/
def setCap (capStr : CapabilityString) (v : Capability) : CapabilityString :=
  if v ≤ Capability_Unused then capStr
  else
    let int_index := (Int.tdiv v 64).toNat
    let bit_index := (Int.tmod v 64).toNat
    let capStr := grow (int_index + 1) capStr int_index
    capStr.set int_index (capStr.getD int_index 0 ||| ((1 <<< bit_index) % wordSize))

/-- Go `NewCapabilityString`. -/
def NewCapabilityString (caps : List Capability) : CapabilityString :=
  caps.foldl setCap []

/-! ## `CapabilityString.CompatibleWith` -/

/-- The loop `for i := range bcast` of `CompatibleWith`, from index `i` on, over
the words of `bcast` that are left; `orch[i]` is a checked access, `none` is
the index-out-of-range panic. -/
def compatLoop (orch : CapabilityString) : Nat → List Nat → Option Bool
  | _, [] => some true
  | i, b :: rest =>
    match orch[i]? with
    | none => none
    | some o => if (b &&& o) != b then some false else compatLoop orch (i + 1) rest

/-- Go `func (bcast CapabilityString) CompatibleWith(orch CapabilityString) bool`. -/
def CapabilityString.CompatibleWith (bcast orch : CapabilityString) : Option Bool :=
  if bcast.length > orch.length then some false
  else compatLoop orch 0 bcast

/-! ## `Capabilities` -/

/-- Go `NewCapabilities`: the pointer it returns is never nil. -/
def NewCapabilities (caps : List Capability) : Capabilities :=
  ⟨NewCapabilityString caps, ⟨⟩⟩

/-- Go `func (bcast *Capabilities) CompatibleWith(orch *net.Capabilities) bool`;
`orch.Bitstring` on a nil `orch` is a nil dereference. -/
def Capabilities.CompatibleWith (bcast : Option Capabilities)
    (orch : Option NetCapabilities) : Option Bool :=
  match bcast with
  | none => some false
  | some b =>
    match orch with
    | none => none
    | some o => CapabilityString.CompatibleWith b.bitstring o.Bitstring

def legacyCapabilities : List Capability :=
  [Capability_H264, Capability_MPEGTS, Capability_MP4, Capability_FractionalFramerates,
   Capability_StorageDirect, Capability_StorageS3, Capability_StorageGCS]

def legacyCapabilityString : CapabilityString := NewCapabilityString legacyCapabilities

/-- Go `func (bcast *Capabilities) LegacyOnly() bool`. -/
def Capabilities.LegacyOnly (bcast : Option Capabilities) : Option Bool :=
  match bcast with
  | none => some false
  | some b => CapabilityString.CompatibleWith b.bitstring legacyCapabilityString

/-! ## `JobCapabilities` -/

/-- The type `ffmpeg.Format` of the lpms library, an integer enumeration. -/
abbrev Format := Int

def FormatNone : Format := 0
def FormatMPEGTS : Format := 1
def FormatMP4 : Format := 2

/-- The two fields of `ffmpeg.VideoProfile` that the code reads. -/
structure VideoProfile where
  Format : Format
  FramerateDen : Nat
  deriving DecidableEq, Repr

/-- Modelled from the spec: the enumeration `net.OSInfo_StorageType` (package
`net` is not among the sources), an `int32` with the three backend kinds
`DIRECT`, `S3` and `GOOGLE` of the protocol. -/
abbrev StorageType := Int

def OSInfo_DIRECT : StorageType := 0
def OSInfo_S3 : StorageType := 1
def OSInfo_GOOGLE : StorageType := 2

/-- Go `net.OSInfo`, of which the code reads `StorageType`. -/
structure OSInfo where
  StorageType : StorageType
  deriving DecidableEq, Repr

/-- Go `drivers.OSSession`, an interface of which the code calls `GetInfo()`:
a session is what `GetInfo()` returns, `none` being a nil `*net.OSInfo`. -/
structure OSSession where
  GetInfo : Option OSInfo
  deriving DecidableEq, Repr

/-- Go `StreamParameters`, with the fields the code reads; `OS` is `none` for
a nil session. -/
structure StreamParameters where
  Profiles : List VideoProfile
  OS : Option OSSession
  deriving DecidableEq, Repr

/-- Go `formatToCapability`, returning `(Capability, error)`. -/
def formatToCapability (format : Format) : Capability × Option CapError :=
  if format = FormatNone then (Capability_MPEGTS, none)
  else if format = FormatMPEGTS then (Capability_MPEGTS, none)
  else if format = FormatMP4 then (Capability_MP4, none)
  else (Capability_Invalid, some CapError.capFormatConv)

/-- Go `storageToCapability`, returning `(Capability, error)`. -/
def storageToCapability (os : Option OSSession) : Capability × Option CapError :=
  match os with
  | none => (Capability_Unused, none)
  | some session =>
    match session.GetInfo with
    | none => (Capability_Unused, none)
    | some info =>
      if info.StorageType = OSInfo_S3 then (Capability_StorageS3, none)
      else if info.StorageType = OSInfo_GOOGLE then (Capability_StorageGCS, none)
      else if info.StorageType = OSInfo_DIRECT then (Capability_StorageDirect, none)
      else (Capability_Invalid, some CapError.capStorageConv)

/-- The keys of the Go map `caps map[Capability]bool`, whose values are all
`true`: a duplicate-free list, in order of first insertion. -/
abbrev CapMap := List Capability

/-- The assignment `caps[c] = true`. -/
def CapMap.set (caps : CapMap) (c : Capability) : CapMap :=
  if c ∈ caps then caps else caps ++ [c]

/-- The loop over `params.Profiles` of `JobCapabilities`; an error is the
early `return nil, err`. -/
def profilesLoop : List VideoProfile → CapMap → Except CapError CapMap
  | [], caps => Except.ok caps
  | v :: rest, caps =>
    match formatToCapability v.Format with
    | (_, some err) => Except.error err
    | (c, none) =>
      let caps := caps.set c
      let caps := if v.FramerateDen > 0 then caps.set Capability_FractionalFramerates else caps
      profilesLoop rest caps

/-- Go `JobCapabilities`, returning `(*Capabilities, error)`. The order in which
`for k := range caps` visits the keys of the map is not specified by Go: it is
the parameter `enumerate`, which the theorems take to be any function that
permutes the key list. -/
def JobCapabilities (enumerate : List Capability → List Capability)
    (params : StreamParameters) : Option Capabilities × Option CapError :=
  let caps : CapMap := CapMap.set [] Capability_H264
  match profilesLoop params.Profiles caps with
  | Except.error err => (none, some err)
  | Except.ok caps =>
    match storageToCapability params.OS with
    | (_, some err) => (none, some err)
    | (storageCap, none) =>
      let caps := caps.set storageCap
      let capList := enumerate caps
      (some ⟨NewCapabilityString capList, ⟨⟩⟩, none)

/-! ## Orchestrator discovery (`discovery/discovery.go`) -/

/-- Go `net.OrchestratorInfo`, with the two fields the code reads. -/
structure OrchestratorInfo where
  Transcoder : String
  Capabilities : Option NetCapabilities
  deriving DecidableEq, Repr

/-- Go interface `common.CapabilityComparator`, a record of its two methods;
`CompatibleWith` takes the advertisement itself, the code calling it on a
non-nil `*net.Capabilities` only. -/
structure CapabilityComparator where
  CompatibleWith : NetCapabilities → Bool
  LegacyOnly : Bool

/-- The comparator that a `*core.Capabilities` is: its two methods, neither of
which panics here (`comparator_legacyOnly`, `comparator_compatibleWith`). -/
def Capabilities.comparator (bcast : Option Capabilities) : CapabilityComparator :=
  ⟨fun orch => (Capabilities.CompatibleWith bcast (some orch)).getD false,
    (Capabilities.LegacyOnly bcast).getD false⟩

/-- Go `orchestratorPool`, with the fields that decide the result; `pred` is
`none` for a nil predicate. -/
structure orchestratorPool where
  uris : List String
  pred : Option (OrchestratorInfo → Bool)

/-- What the collector learns at one `select`: the result `(info, err)` of one
call of `serverGetOrchInfo`, `none` standing for a non-nil error, or the expiry
of the context. -/
inductive Arrival where
  | reply (info : Option OrchestratorInfo)
  | deadline
  deriving DecidableEq, Repr

/-- The case of the `select` that fires: `<-infoCh`, `<-errCh`, `<-ctx.Done()`. -/
inductive ChanEvent where
  | info (info : OrchestratorInfo)
  | err
  | done
  deriving DecidableEq, Repr

/-- The test `o.pred != nil && !o.pred(info)` of `isCompatible`. -/
def predRejects (o : orchestratorPool) (info : OrchestratorInfo) : Bool :=
  match o.pred with
  | some pred => !pred info
  | none => false

/-- The closure `isCompatible` of `GetOrchestrators`. -/
def isCompatible (o : orchestratorPool) (caps : CapabilityComparator) (legacyCapsOnly : Bool)
    (info : OrchestratorInfo) : Bool :=
  if predRejects o info then false
  else
    match info.Capabilities with
    | none => if legacyCapsOnly then true else false
    | some c => caps.CompatibleWith c

/-- The closure `getOrchInfo` of `GetOrchestrators`, as the message it sends:
the info on `infoCh` when the call succeeded and the node is compatible, an
error on `errCh` otherwise; the expiry of the context is passed on. -/
def getOrchInfo (o : orchestratorPool) (caps : CapabilityComparator) (legacyCapsOnly : Bool) :
    Arrival → ChanEvent
  | Arrival.reply (some info) =>
    if isCompatible o caps legacyCapsOnly info then ChanEvent.info info else ChanEvent.err
  | Arrival.reply none => ChanEvent.err
  | Arrival.deadline => ChanEvent.done

/-- Go `suspension`: a node and its penalty. -/
structure suspension where
  orch : OrchestratorInfo
  penalty : Int
  deriving DecidableEq, Repr

/-- Modelled from the spec: the suspension queue (`newSuspensionQueue` and its
heap methods are not among the sources), a min-heap of suspension entries
ordered by ascending penalty, here the list of its entries in the order in
which they would be popped. -/
abbrev suspensionQueue := List suspension

/-- Modelled from the spec: the empty queue of `newSuspensionQueue()`. -/
def newSuspensionQueue : suspensionQueue := []

/-- Modelled from the spec: `heap.Push` on the suspension queue; the entry goes
after the entries of penalty at most its own (the order among equal penalties
is not specified). -/
def suspensionQueue.Push : suspensionQueue → suspension → suspensionQueue
  | [], s => [s]
  | t :: rest, s =>
    if s.penalty < t.penalty then s :: t :: rest else t :: suspensionQueue.Push rest s

/-- Modelled from the spec: `heap.Pop` on the suspension queue, the entry of
least penalty and the queue that is left; `none` on an empty queue. -/
def suspensionQueue.Pop : suspensionQueue → Option (suspension × suspensionQueue)
  | [] => none
  | s :: rest => some (s, rest)

/-- Modelled from the spec: `Len()` of the suspension queue. -/
def suspensionQueue.Len (q : suspensionQueue) : Nat := q.length

/-- The variables of the collection loop of `GetOrchestrators`. -/
structure CollectState where
  i : Nat
  infos : List OrchestratorInfo
  suspendedInfos : suspensionQueue
  nbResp : Nat
  timeout : Bool
  deriving DecidableEq, Repr

/-- The body of the collection loop, on the case `ev` of the `select`,
followed by the `i++` of the loop. -/
def collectStep (suspender : String → Int) (ev : ChanEvent) (st : CollectState) :
    CollectState :=
  match ev with
  | ChanEvent.info info =>
    if suspender info.Transcoder = 0 then
      ⟨st.i + 1, st.infos ++ [info], st.suspendedInfos, st.nbResp + 1, st.timeout⟩
    else
      ⟨st.i + 1, st.infos,
        st.suspendedInfos.Push ⟨info, suspender info.Transcoder⟩, st.nbResp + 1, st.timeout⟩
  | ChanEvent.err => ⟨st.i + 1, st.infos, st.suspendedInfos, st.nbResp + 1, st.timeout⟩
  | ChanEvent.done => ⟨st.i + 1, st.infos, st.suspendedInfos, st.nbResp, true⟩

/-- The condition of the collection loop,
`i < numAvailableOrchs && len(infos) < numOrchestrators && !timeout`. -/
def collectCond (numAvailableOrchs : Nat) (numOrchestrators : Int) (st : CollectState) : Prop :=
  st.i < numAvailableOrchs ∧ (st.infos.length : Int) < numOrchestrators ∧ st.timeout = false

instance (numAvailableOrchs : Nat) (numOrchestrators : Int) (st : CollectState) :
    Decidable (collectCond numAvailableOrchs numOrchestrators st) := by
  unfold collectCond
  infer_instance

/-- The collection loop
`for i := 0; i < numAvailableOrchs && len(infos) < numOrchestrators && !timeout; i++`,
run for at most `fuel` iterations; `events i` is the case that fires at the
`select` of iteration `i`. -/
def collectLoop (numAvailableOrchs : Nat) (numOrchestrators : Int) (suspender : String → Int)
    (events : Nat → ChanEvent) : Nat → CollectState → CollectState
  | 0, st => st
  | fuel + 1, st =>
    if collectCond numAvailableOrchs numOrchestrators st then
      collectLoop numAvailableOrchs numOrchestrators suspender events fuel
        (collectStep suspender (events st.i) st)
    else st

/-- The loop `for i := 0; i < diff && suspendedInfos.Len() > 0; i++` that tops
the result up, with `diff - i` iterations left. -/
def topUpLoop : Nat → suspensionQueue → List OrchestratorInfo → List OrchestratorInfo
  | 0, _, infos => infos
  | left + 1, suspendedInfos, infos =>
    if suspendedInfos.Len > 0 then
      match suspendedInfos.Pop with
      | some (s, rest) => topUpLoop left rest (infos ++ [s.orch])
      | none => infos
    else infos

/-- The clamped count `int(math.Min(float64(numAvailableOrchs), float64(numOrchestrators)))`.
The conversions to `float64` are monotone and exact on values of magnitude up
to `2 ^ 53`, so that for a pool of fewer than `2 ^ 53` addresses the clamped
count is this minimum whenever the minimum is at least `-2 ^ 53`, and is
negative, as this minimum is, otherwise. -/
def clampCount (numAvailableOrchs : Nat) (numOrchestrators : Int) : Int :=
  min (numAvailableOrchs : Int) numOrchestrators

/-- The state in which the collection loop of `GetOrchestrators` ends; the loop
makes at most `numAvailableOrchs` iterations, which is its fuel. -/
def collected (o : orchestratorPool) (numOrchestrators : Int) (suspender : String → Int)
    (caps : CapabilityComparator) (arrivals : Nat → Arrival) : CollectState :=
  collectLoop o.uris.length (clampCount o.uris.length numOrchestrators) suspender
    (fun i => getOrchInfo o caps caps.LegacyOnly (arrivals i)) o.uris.length
    ⟨0, [], newSuspensionQueue, 0, false⟩

/-- Go `GetOrchestrators`, returning `([]*net.OrchestratorInfo, error)`;
`arrivals i` is what reaches the collector at iteration `i` of its loop. -/
def GetOrchestrators (o : orchestratorPool) (numOrchestrators : Int) (suspender : String → Int)
    (caps : CapabilityComparator) (arrivals : Nat → Arrival) :
    List OrchestratorInfo × Option String :=
  let st := collected o numOrchestrators suspender caps arrivals
  let numOrchestrators := clampCount o.uris.length numOrchestrators
  let infos :=
    if (st.infos.length : Int) < numOrchestrators then
      topUpLoop (numOrchestrators - st.infos.length).toNat st.suspendedInfos st.infos
    else st.infos
  (infos, none)

/-- The arrivals of a finite list, the deadline coming after them. -/
def arrivalsOf (l : List Arrival) : Nat → Arrival :=
  fun i => l.getD i Arrival.deadline

/-! ## Notions of the specification of discovery -/

/-- The first `k` cases that fired at the `select` of the collection loop. -/
def consumed (events : Nat → ChanEvent) (k : Nat) : List ChanEvent :=
  (List.range k).map events

/-- The node that a case of the `select` carries, if any. -/
def ChanEvent.node : ChanEvent → Option OrchestratorInfo
  | ChanEvent.info x => some x
  | _ => none

/-- The nodes received with a zero penalty, in the order of their reception. -/
def accepted (suspender : String → Int) (evs : List ChanEvent) : List OrchestratorInfo :=
  (evs.filterMap ChanEvent.node).filter (fun x => decide (suspender x.Transcoder = 0))

/-- The nodes received with a non-zero penalty, with their penalties, in the
order of their reception. -/
def deferred (suspender : String → Int) (evs : List ChanEvent) : List suspension :=
  ((evs.filterMap ChanEvent.node).filter (fun x => decide (suspender x.Transcoder ≠ 0))).map
    (fun x => ⟨x, suspender x.Transcoder⟩)

/-- The queue after the entries of a list were pushed one by one. -/
def queueOf (l : List suspension) : suspensionQueue :=
  l.foldl suspensionQueue.Push newSuspensionQueue

/-- What the collection loop maintains: the accepted nodes are the nodes
received with a zero penalty, in the order of reception; the queue holds the
nodes received with a non-zero penalty; every iteration counted a response or
the deadline; and the deadline, if it was received, was received last. -/
def CollectInv (suspender : String → Int) (events : Nat → ChanEvent) (st : CollectState) :
    Prop :=
  st.infos = accepted suspender (consumed events st.i) ∧
  st.suspendedInfos = queueOf (deferred suspender (consumed events st.i)) ∧
  st.i = st.nbResp + (if st.timeout then 1 else 0) ∧
  (∀ k, k + 1 < st.i → events k ≠ ChanEvent.done) ∧
  (st.timeout = false → ∀ k, k < st.i → events k ≠ ChanEvent.done) ∧
  (st.timeout = true → 0 < st.i ∧ events (st.i - 1) = ChanEvent.done)

/-- The state of the collection loop of `GetOrchestrators` after at most `k`
iterations. -/
def collectedAt (o : orchestratorPool) (numOrchestrators : Int) (suspender : String → Int)
    (caps : CapabilityComparator) (arrivals : Nat → Arrival) (k : Nat) : CollectState :=
  collectLoop o.uris.length (clampCount o.uris.length numOrchestrators) suspender
    (fun i => getOrchInfo o caps caps.LegacyOnly (arrivals i)) k
    ⟨0, [], newSuspensionQueue, 0, false⟩

/-- The entries that the top-up loop of `GetOrchestrators` pops off the queue:
the first `numOrchestrators - len(infos)` of its pop order, or all of them. -/
def popped (o : orchestratorPool) (numOrchestrators : Int) (suspender : String → Int)
    (caps : CapabilityComparator) (arrivals : Nat → Arrival) : List suspension :=
  (collected o numOrchestrators suspender caps arrivals).suspendedInfos.take
    (clampCount o.uris.length numOrchestrators
      - (collected o numOrchestrators suspender caps arrivals).infos.length).toNat

/-- The entries that the top-up loop of `GetOrchestrators` leaves in the queue. -/
def unpopped (o : orchestratorPool) (numOrchestrators : Int) (suspender : String → Int)
    (caps : CapabilityComparator) (arrivals : Nat → Arrival) : List suspension :=
  (collected o numOrchestrators suspender caps arrivals).suspendedInfos.drop
    (clampCount o.uris.length numOrchestrators
      - (collected o numOrchestrators suspender caps arrivals).infos.length).toNat

/-! ## Notions of the specification -/

/-- Bit `64 * i + j` of a bitstring is set when word `i` exists and has bit
`j` set. -/
def bitSet (s : CapabilityString) (i j : Nat) : Bool :=
  match s[i]? with
  | some w => w.testBit j
  | none => false

/-- Every word of the bitstring is a `uint64`. -/
def WordsOK (s : CapabilityString) : Prop := ∀ w ∈ s, w < wordSize

instance (s : CapabilityString) : Decidable (WordsOK s) := by
  unfold WordsOK
  infer_instance

/-- The capability of a recognised format, in the words of the specification:
`FormatNone` and `FormatMPEGTS` give MPEGTS, `FormatMP4` gives MP4. -/
def formatCapability (format : Format) : Capability :=
  if format = FormatMP4 then Capability_MP4 else Capability_MPEGTS

/-- Every profile has one of the three recognised formats. -/
def FormatsKnown (params : StreamParameters) : Prop :=
  ∀ v ∈ params.Profiles, v.Format ∈ [FormatNone, FormatMPEGTS, FormatMP4]

instance (params : StreamParameters) : Decidable (FormatsKnown params) := by
  unfold FormatsKnown
  infer_instance

/-- A storage session with non-nil info has a storage type outside the three
recognised ones. -/
def StorageUnknown (params : StreamParameters) : Prop :=
  ∃ session info, params.OS = some session ∧ session.GetInfo = some info ∧
    info.StorageType ∉ [OSInfo_S3, OSInfo_GOOGLE, OSInfo_DIRECT]

/-- The storage capability of a recognised storage type. -/
def storageCapability (t : StorageType) : Capability :=
  if t = OSInfo_S3 then Capability_StorageS3
  else if t = OSInfo_GOOGLE then Capability_StorageGCS
  else Capability_StorageDirect

/-- The storage ids a job requires: the storage capability when a storage
session with info is present, nothing otherwise. -/
def storageIds : Option OSSession → List Capability
  | some ⟨some info⟩ => [storageCapability info.StorageType]
  | _ => []

/-- The ids a job requires, in the words of the specification: H264, the
capability of each profile's format, FractionalFramerates when some profile has
a positive `FramerateDen`, and the storage capability when a storage session
with info is present. -/
def requiredIds (params : StreamParameters) : List Capability :=
  [Capability_H264]
    ++ params.Profiles.map (fun v => formatCapability v.Format)
    ++ (if params.Profiles.any (fun v => decide (v.FramerateDen > 0))
        then [Capability_FractionalFramerates] else [])
    ++ storageIds params.OS

/-! ## Lemmas on the growth loop and on one step of `NewCapabilityString` -/

theorem bitSet_eq_getD (s : CapabilityString) (i j : Nat) :
    bitSet s i j = (s.getD i 0).testBit j := by
  unfold bitSet
  rw [List.getD_eq_getElem?_getD]
  cases s[i]? <;> simp

theorem grow_eq (fuel : Nat) (s : CapabilityString) (idx : Nat)
    (h : idx + 1 - s.length ≤ fuel) :
    grow fuel s idx = s ++ List.replicate (idx + 1 - s.length) 0 := by
  induction fuel generalizing s with
  | zero =>
    have h0 : idx + 1 - s.length = 0 := by omega
    simp [grow, h0]
  | succ n ih =>
    unfold grow
    split
    · rename_i hle
      rw [ih (s ++ [0]) (by simp; omega)]
      have e : idx + 1 - s.length = (idx + 1 - (s ++ [0]).length) + 1 := by simp; omega
      rw [e, List.replicate_succ]
      simp
    · rename_i hgt
      have h0 : idx + 1 - s.length = 0 := by omega
      simp [h0]

theorem grow_length (s : CapabilityString) (idx : Nat) :
    (grow (idx + 1) s idx).length = max s.length (idx + 1) := by
  rw [grow_eq _ _ _ (by omega)]
  simp; omega

theorem grow_getD (s : CapabilityString) (idx i : Nat) :
    (grow (idx + 1) s idx).getD i 0 = s.getD i 0 := by
  rw [grow_eq _ _ _ (by omega)]
  simp only [List.getD_eq_getElem?_getD, List.getElem?_append]
  split
  · rfl
  · rename_i h
    rw [List.getElem?_eq_none (by omega : s.length ≤ i)]
    simp [List.getElem?_replicate]
    split <;> simp

theorem setCap_skip (s : CapabilityString) (v : Int) (h : v ≤ -1) :
    setCap s v = s := by
  have h1 : v ≤ Capability_Unused := h
  simp [setCap, h1]

theorem setCap_nonneg (s : CapabilityString) (v : Int) (h : 0 ≤ v) :
    setCap s v = (grow (v.toNat / 64 + 1) s (v.toNat / 64)).set (v.toNat / 64)
      ((grow (v.toNat / 64 + 1) s (v.toNat / 64)).getD (v.toNat / 64) 0 ||| 2 ^ (v.toNat % 64)) := by
  have h1 : ¬ v ≤ Capability_Unused := by
    show ¬ v ≤ (-1 : Int)
    omega
  have hd : (Int.tdiv v 64).toNat = v.toNat / 64 := by
    rw [Int.tdiv_eq_ediv h (by decide)]; omega
  have hm : (Int.tmod v 64).toNat = v.toNat % 64 := by
    rw [Int.tmod_eq_emod h (by decide)]; omega
  have hlt : 2 ^ (v.toNat % 64) < wordSize := by
    unfold wordSize
    exact Nat.pow_lt_pow_right (by decide) (Nat.mod_lt _ (by decide))
  simp only [setCap, h1, if_false, hd, hm, Nat.one_shiftLeft, Nat.mod_eq_of_lt hlt]

theorem setCap_length (s : CapabilityString) (v : Int) (h : 0 ≤ v) :
    (setCap s v).length = max s.length (v.toNat / 64 + 1) := by
  rw [setCap_nonneg s v h, List.length_set, grow_length]

theorem setCap_getD (s : CapabilityString) (v : Int) (h : 0 ≤ v) (i : Nat) :
    (setCap s v).getD i 0 =
      if i = v.toNat / 64 then s.getD i 0 ||| 2 ^ (v.toNat % 64) else s.getD i 0 := by
  rw [setCap_nonneg s v h]
  have hlen := grow_length s (v.toNat / 64)
  have hget := grow_getD s (v.toNat / 64)
  generalize grow (v.toNat / 64 + 1) s (v.toNat / 64) = g at hlen hget
  rw [List.getD_eq_getElem?_getD, List.getElem?_set]
  by_cases hi : i = v.toNat / 64
  · subst hi
    have hlt : v.toNat / 64 < g.length := by omega
    rw [if_pos rfl, if_pos hlt, if_pos rfl, Option.getD_some, hget]
  · have hne : ¬ v.toNat / 64 = i := fun e => hi e.symm
    simp only [hne, hi, if_false]
    rw [← List.getD_eq_getElem?_getD, hget]

theorem two_pow_lt_wordSize (j : Nat) (h : j < 64) : 2 ^ j < wordSize := by
  unfold wordSize
  exact Nat.pow_lt_pow_right (by decide) h

theorem setCap_wordsOK (s : CapabilityString) (v : Int) (hs : WordsOK s) :
    WordsOK (setCap s v) := by
  by_cases h : 0 ≤ v
  · rw [setCap_nonneg s v h, grow_eq _ _ _ (by omega)]
    have hg : WordsOK (s ++ List.replicate (v.toNat / 64 + 1 - s.length) 0) := by
      intro w hw
      rcases List.mem_append.1 hw with h1 | h1
      · exact hs w h1
      · rw [(List.mem_replicate.1 h1).2]
        exact Nat.pos_of_ne_zero (by decide)
    generalize s ++ List.replicate (v.toNat / 64 + 1 - s.length) 0 = g at hg
    intro w hw
    rcases List.mem_or_eq_of_mem_set hw with h1 | h1
    · exact hg w h1
    · subst h1
      apply Nat.or_lt_two_pow
      · rw [List.getD_eq_getElem?_getD]
        cases hq : g[v.toNat / 64]? with
        | none => exact Nat.pos_of_ne_zero (by decide)
        | some x => exact hg x (List.getElem?_mem hq)
      · exact two_pow_lt_wordSize _ (Nat.mod_lt _ (by decide))
  · rw [setCap_skip s v (by omega)]
    exact hs

theorem foldl_setCap_wordsOK (caps : List Int) (s : CapabilityString) (hs : WordsOK s) :
    WordsOK (caps.foldl setCap s) := by
  induction caps generalizing s with
  | nil => exact hs
  | cons v rest ih => exact ih _ (setCap_wordsOK s v hs)

theorem foldl_setCap_length (caps : List Int) (s : CapabilityString) (k : Nat) :
    k < (caps.foldl setCap s).length ↔
      k < s.length ∨ ∃ c ∈ caps, 0 ≤ c ∧ k ≤ c.toNat / 64 := by
  induction caps generalizing s with
  | nil => simp
  | cons v rest ih =>
    rw [List.foldl_cons, ih]
    by_cases h : 0 ≤ v
    · rw [setCap_length s v h]
      constructor
      · rintro (h1 | ⟨c, hc, h0, hk⟩)
        · by_cases h2 : k < s.length
          · exact Or.inl h2
          · exact Or.inr ⟨v, List.mem_cons_self _ _, h, by omega⟩
        · exact Or.inr ⟨c, List.mem_cons_of_mem _ hc, h0, hk⟩
      · rintro (h1 | ⟨c, hc, h0, hk⟩)
        · exact Or.inl (by omega)
        · rcases List.mem_cons.1 hc with e | hc
          · subst e
            exact Or.inl (by omega)
          · exact Or.inr ⟨c, hc, h0, hk⟩
    · rw [setCap_skip s v (by omega)]
      constructor
      · rintro (h1 | ⟨c, hc, h0, hk⟩)
        · exact Or.inl h1
        · exact Or.inr ⟨c, List.mem_cons_of_mem _ hc, h0, hk⟩
      · rintro (h1 | ⟨c, hc, h0, hk⟩)
        · exact Or.inl h1
        · rcases List.mem_cons.1 hc with e | hc
          · subst e
            exact absurd h0 h
          · exact Or.inr ⟨c, hc, h0, hk⟩

theorem foldl_setCap_bit (caps : List Int) (s : CapabilityString) (i j : Nat) (hj : j < 64) :
    ((caps.foldl setCap s).getD i 0).testBit j = true ↔
      (s.getD i 0).testBit j = true ∨ ((64 * i + j : Int) ∈ caps) := by
  induction caps generalizing s with
  | nil => simp
  | cons v rest ih =>
    rw [List.foldl_cons, ih, List.mem_cons]
    by_cases h : 0 ≤ v
    · rw [setCap_getD s v h]
      by_cases hi : i = v.toNat / 64
      · simp only [hi, if_true, Nat.testBit_or, Nat.testBit_two_pow, Bool.or_eq_true,
          decide_eq_true_eq]
        have e : v.toNat % 64 = j ↔ (64 * ((v.toNat / 64 : Nat) : Int) + (j : Int)) = v := by
          omega
        rw [e]
        tauto
      · simp only [hi, if_false]
        have e : ¬ (64 * (i : Int) + (j : Int)) = v := by omega
        simp only [e, false_or]
    · rw [setCap_skip s v (by omega)]
      have e : ¬ (64 * (i : Int) + (j : Int)) = v := by omega
      simp only [e, false_or]

/-! ## Lemmas on `CompatibleWith` -/

theorem land_eq_self_iff (a b : Nat) (ha : a < wordSize) :
    a &&& b = a ↔ ∀ j, j < 64 → a.testBit j = true → b.testBit j = true := by
  constructor
  · intro h j _ hj
    have := congrArg (fun x => x.testBit j) h
    simp only [Nat.testBit_and, hj, Bool.true_and] at this
    exact this
  · intro h
    apply Nat.eq_of_testBit_eq
    intro j
    rw [Nat.testBit_and]
    by_cases hj : j < 64
    · cases hb : a.testBit j with
      | false => simp
      | true => simp [h j hj hb]
    · have : a.testBit j = false :=
        Nat.testBit_lt_two_pow (lt_of_lt_of_le ha (Nat.pow_le_pow_right (by decide) (by omega)))
      simp [this]

theorem compatLoop_isSome (orch : CapabilityString) (i : Nat) (bcast : List Nat)
    (h : i + bcast.length ≤ orch.length) : ∃ b, compatLoop orch i bcast = some b := by
  induction bcast generalizing i with
  | nil => exact ⟨true, rfl⟩
  | cons b rest ih =>
    simp only [List.length_cons] at h
    have hi : i < orch.length := by omega
    unfold compatLoop
    rw [List.getElem?_eq_getElem hi]
    simp only
    split
    · exact ⟨false, rfl⟩
    · exact ih (i + 1) (by omega)

theorem compatLoop_true_iff (orch : CapabilityString) (i : Nat) (bcast : List Nat)
    (h : i + bcast.length ≤ orch.length) :
    compatLoop orch i bcast = some true ↔
      ∀ k, k < bcast.length → bcast.getD k 0 &&& orch.getD (i + k) 0 = bcast.getD k 0 := by
  induction bcast generalizing i with
  | nil => simp [compatLoop]
  | cons b rest ih =>
    simp only [List.length_cons] at h
    have hi : i < orch.length := by omega
    have hget : orch.getD i 0 = orch[i] := by
      rw [List.getD_eq_getElem?_getD, List.getElem?_eq_getElem hi, Option.getD_some]
    unfold compatLoop
    rw [List.getElem?_eq_getElem hi]
    simp only
    by_cases hb : b &&& orch[i] = b
    · have hb2 : ((b &&& orch[i]) != b) = false := by simp [hb]
      rw [hb2]
      simp only [Bool.false_eq_true, if_false]
      rw [ih (i + 1) (by omega)]
      constructor
      · intro hk k hlt
        cases k with
        | zero =>
          simp only [List.getD_cons_zero, Nat.add_zero, hget]
          exact hb
        | succ k =>
          have := hk k (by simpa using hlt)
          simpa [Nat.add_assoc, Nat.add_comm 1 k] using this
      · intro hk k hlt
        have := hk (k + 1) (by simpa using hlt)
        simpa [Nat.add_assoc, Nat.add_comm 1 k] using this
    · have hb2 : ((b &&& orch[i]) != b) = true := by simp [hb]
      rw [hb2]
      simp only [if_true]
      constructor
      · intro hc
        cases hc
      · intro hk
        have := hk 0 (by simp)
        simp only [List.getD_cons_zero, Nat.add_zero, hget] at this
        exact absurd this hb

theorem compatibleWith_isSome (bcast orch : CapabilityString) :
    ∃ b, CapabilityString.CompatibleWith bcast orch = some b := by
  unfold CapabilityString.CompatibleWith
  split
  · exact ⟨false, rfl⟩
  · exact compatLoop_isSome orch 0 bcast (by omega)

theorem compatibleWith_true_iff_words (bcast orch : CapabilityString) :
    CapabilityString.CompatibleWith bcast orch = some true ↔
      bcast.length ≤ orch.length ∧
        ∀ k, k < bcast.length → bcast.getD k 0 &&& orch.getD k 0 = bcast.getD k 0 := by
  unfold CapabilityString.CompatibleWith
  split
  · rename_i h
    constructor
    · intro hc
      cases hc
    · intro hc
      omega
  · rename_i h
    rw [compatLoop_true_iff orch 0 bcast (by omega)]
    simp only [Nat.zero_add]
    constructor
    · intro hk
      exact ⟨by omega, hk⟩
    · intro hk
      exact hk.2

theorem getD_lt_wordSize (s : CapabilityString) (hs : WordsOK s) (i : Nat) :
    s.getD i 0 < wordSize := by
  rw [List.getD_eq_getElem?_getD]
  cases hq : s[i]? with
  | none => exact Nat.pos_of_ne_zero (by decide)
  | some x => exact hs x (List.getElem?_mem hq)

theorem compatibleWith_true_iff_bits (bcast orch : CapabilityString) (hb : WordsOK bcast) :
    CapabilityString.CompatibleWith bcast orch = some true ↔
      bcast.length ≤ orch.length ∧
        ∀ i j, j < 64 → bitSet bcast i j = true → bitSet orch i j = true := by
  rw [compatibleWith_true_iff_words]
  constructor
  · rintro ⟨hl, hw⟩
    refine ⟨hl, ?_⟩
    intro i j hj hset
    rw [bitSet_eq_getD] at hset ⊢
    by_cases hi : i < bcast.length
    · exact (land_eq_self_iff _ _ (getD_lt_wordSize bcast hb i)).1 (hw i hi) j hj hset
    · rw [List.getD_eq_default _ _ (by omega)] at hset
      simp at hset
  · rintro ⟨hl, hw⟩
    refine ⟨hl, ?_⟩
    intro k _
    rw [land_eq_self_iff _ _ (getD_lt_wordSize bcast hb k)]
    intro j hj hset
    have := hw k j hj
    rw [bitSet_eq_getD, bitSet_eq_getD] at this
    exact this hset

/-! ## Lemmas on `NewCapabilityString` -/

theorem newCap_wordsOK (caps : List Int) : WordsOK (NewCapabilityString caps) :=
  foldl_setCap_wordsOK caps [] (fun _ h => absurd h (List.not_mem_nil _))

theorem newCap_bit (caps : List Int) (i j : Nat) (hj : j < 64) :
    bitSet (NewCapabilityString caps) i j = true ↔ ((64 * i + j : Int) ∈ caps) := by
  rw [bitSet_eq_getD]
  unfold NewCapabilityString
  rw [foldl_setCap_bit caps [] i j hj]
  simp

theorem newCap_length (caps : List Int) (k : Nat) :
    k < (NewCapabilityString caps).length ↔ ∃ c ∈ caps, 0 ≤ c ∧ k ≤ c.toNat / 64 := by
  unfold NewCapabilityString
  rw [foldl_setCap_length caps [] k]
  simp

theorem words_ext (s t : CapabilityString) (hs : WordsOK s) (ht : WordsOK t)
    (hlen : s.length = t.length)
    (hbit : ∀ i j, j < 64 → bitSet s i j = bitSet t i j) : s = t := by
  apply List.ext_getElem hlen
  intro n h1 h2
  have e1 : s.getD n 0 = s[n] := by
    rw [List.getD_eq_getElem?_getD, List.getElem?_eq_getElem h1, Option.getD_some]
  have e2 : t.getD n 0 = t[n] := by
    rw [List.getD_eq_getElem?_getD, List.getElem?_eq_getElem h2, Option.getD_some]
  rw [← e1, ← e2]
  apply Nat.eq_of_testBit_eq
  intro j
  by_cases hj : j < 64
  · have := hbit n j hj
    rw [bitSet_eq_getD, bitSet_eq_getD] at this
    exact this
  · have hp : wordSize ≤ 2 ^ j := Nat.pow_le_pow_right (by decide) (by omega)
    rw [Nat.testBit_lt_two_pow (lt_of_lt_of_le (getD_lt_wordSize s hs n) hp),
      Nat.testBit_lt_two_pow (lt_of_lt_of_le (getD_lt_wordSize t ht n) hp)]

theorem length_eq_of_lt_iff (a b : Nat) (h : ∀ k, k < a ↔ k < b) : a = b := by
  have h1 := h a
  have h2 := h b
  omega

theorem newCap_congr (l₁ l₂ : List Int) (h : ∀ x, 0 ≤ x → (x ∈ l₁ ↔ x ∈ l₂)) :
    NewCapabilityString l₁ = NewCapabilityString l₂ := by
  apply words_ext _ _ (newCap_wordsOK l₁) (newCap_wordsOK l₂)
  · apply length_eq_of_lt_iff
    intro k
    rw [newCap_length, newCap_length]
    constructor
    · rintro ⟨c, hc, h0, hk⟩
      exact ⟨c, (h c h0).1 hc, h0, hk⟩
    · rintro ⟨c, hc, h0, hk⟩
      exact ⟨c, (h c h0).2 hc, h0, hk⟩
  · intro i j hj
    rw [Bool.eq_iff_iff, newCap_bit l₁ i j hj, newCap_bit l₂ i j hj]
    exact h _ (by omega)

theorem newCap_compatible_iff (C D : List Int) :
    CapabilityString.CompatibleWith (NewCapabilityString C) (NewCapabilityString D) = some true ↔
      ∀ c ∈ C, 0 ≤ c → c ∈ D := by
  rw [compatibleWith_true_iff_bits _ _ (newCap_wordsOK C)]
  constructor
  · rintro ⟨_, hb⟩ c hc h0
    have := (newCap_bit D (c.toNat / 64) (c.toNat % 64) (Nat.mod_lt _ (by decide))).1
      (hb _ _ (Nat.mod_lt _ (by decide))
        ((newCap_bit C (c.toNat / 64) (c.toNat % 64) (Nat.mod_lt _ (by decide))).2
          (by
            have e : (64 * ((c.toNat / 64 : Nat) : Int) + ((c.toNat % 64 : Nat) : Int)) = c := by
              omega
            rw [e]
            exact hc)))
    have e : (64 * ((c.toNat / 64 : Nat) : Int) + ((c.toNat % 64 : Nat) : Int)) = c := by
      omega
    rw [e] at this
    exact this
  · intro h
    constructor
    · by_contra hlt
      have hlt : (NewCapabilityString D).length < (NewCapabilityString C).length := by omega
      obtain ⟨c, hc, h0, hk⟩ := (newCap_length C _).1 hlt
      have : (NewCapabilityString D).length < (NewCapabilityString D).length :=
        (newCap_length D _).2 ⟨c, h c hc h0, h0, hk⟩
      omega
    · intro i j hj hset
      rw [newCap_bit C i j hj] at hset
      rw [newCap_bit D i j hj]
      exact h _ hset (by omega)

/-! ## Lemmas on `JobCapabilities` -/

theorem formatToCapability_known (f : Int) (h : f ∈ [FormatNone, FormatMPEGTS, FormatMP4]) :
    formatToCapability f = (formatCapability f, none) := by
  simp only [List.mem_cons, List.mem_singleton, List.not_mem_nil, or_false] at h
  unfold formatToCapability formatCapability
  rcases h with h | h | h <;> subst h <;> decide

theorem formatToCapability_unknown (f : Int) (h : f ∉ [FormatNone, FormatMPEGTS, FormatMP4]) :
    formatToCapability f = (Capability_Invalid, some CapError.capFormatConv) := by
  simp only [List.mem_cons, List.mem_singleton, List.not_mem_nil, or_false, not_or] at h
  unfold formatToCapability
  rw [if_neg h.1, if_neg h.2.1, if_neg h.2.2]

theorem capMap_mem_set (caps : CapMap) (c x : Int) :
    x ∈ CapMap.set caps c ↔ x ∈ caps ∨ x = c := by
  unfold CapMap.set
  split
  · rename_i h
    constructor
    · exact Or.inl
    · rintro (h1 | h1)
      · exact h1
      · rw [h1]; exact h
  · simp

theorem profilesLoop_unknown (ps : List VideoProfile) (caps : CapMap)
    (h : ∃ v ∈ ps, v.Format ∉ [FormatNone, FormatMPEGTS, FormatMP4]) :
    profilesLoop ps caps = Except.error CapError.capFormatConv := by
  induction ps generalizing caps with
  | nil =>
    obtain ⟨v, hv, _⟩ := h
    cases hv
  | cons v rest ih =>
    unfold profilesLoop
    by_cases hk : v.Format ∈ [FormatNone, FormatMPEGTS, FormatMP4]
    · rw [formatToCapability_known _ hk]
      simp only
      apply ih
      obtain ⟨w, hw, hu⟩ := h
      rcases List.mem_cons.1 hw with e | hw
      · subst e
        exact absurd hk hu
      · exact ⟨w, hw, hu⟩
    · rw [formatToCapability_unknown _ hk]

theorem profilesLoop_known (ps : List VideoProfile) (caps : CapMap)
    (h : ∀ v ∈ ps, v.Format ∈ [FormatNone, FormatMPEGTS, FormatMP4]) :
    ∃ out, profilesLoop ps caps = Except.ok out ∧
      ∀ x, x ∈ out ↔
        (x ∈ caps ∨ x ∈ ps.map (fun v => formatCapability v.Format) ∨
          (ps.any (fun v => decide (v.FramerateDen > 0)) = true ∧
            x = Capability_FractionalFramerates)) := by
  induction ps generalizing caps with
  | nil => exact ⟨caps, rfl, by simp⟩
  | cons v rest ih =>
    unfold profilesLoop
    rw [formatToCapability_known _ (h v (List.mem_cons_self _ _))]
    simp only
    obtain ⟨out, ho, hm⟩ := ih
      (if v.FramerateDen > 0 then
        CapMap.set (CapMap.set caps (formatCapability v.Format)) Capability_FractionalFramerates
       else CapMap.set caps (formatCapability v.Format))
      (fun w hw => h w (List.mem_cons_of_mem _ hw))
    refine ⟨out, ho, ?_⟩
    intro x
    rw [hm x]
    by_cases hd : v.FramerateDen > 0
    · simp only [hd, if_true, capMap_mem_set, List.map_cons, List.mem_cons, List.any_cons,
        decide_True, Bool.true_or, true_and]
      tauto
    · simp only [hd, if_false, capMap_mem_set, List.map_cons, List.mem_cons, List.any_cons,
        decide_False, Bool.false_or]
      tauto

theorem storageToCapability_unknown (params : StreamParameters) (h : StorageUnknown params) :
    storageToCapability params.OS = (Capability_Invalid, some CapError.capStorageConv) := by
  obtain ⟨session, info, h1, h2, h3⟩ := h
  simp only [List.mem_cons, List.mem_singleton, List.not_mem_nil, or_false, not_or] at h3
  rw [h1]
  unfold storageToCapability
  simp only [h2]
  rw [if_neg h3.1, if_neg h3.2.1, if_neg h3.2.2]

theorem storageToCapability_known (params : StreamParameters) (h : ¬ StorageUnknown params) :
    ∃ c, storageToCapability params.OS = (c, none) ∧
      ∀ x : Int, 0 ≤ x → (x = c ↔ x ∈ storageIds params.OS) := by
  cases hos : params.OS with
  | none =>
    refine ⟨Capability_Unused, rfl, ?_⟩
    intro x hx
    have : x ≠ Capability_Unused := by
      show x ≠ (-1 : Int)
      omega
    simp [storageIds, this]
  | some session =>
    obtain ⟨gi⟩ := session
    cases gi with
    | none =>
      refine ⟨Capability_Unused, rfl, ?_⟩
      intro x hx
      have : x ≠ Capability_Unused := by
        show x ≠ (-1 : Int)
        omega
      simp [storageIds, this]
    | some info =>
      have hk : info.StorageType ∈ [OSInfo_S3, OSInfo_GOOGLE, OSInfo_DIRECT] := by
        by_contra hn
        exact h ⟨⟨some info⟩, info, hos, rfl, hn⟩
      refine ⟨storageCapability info.StorageType, ?_, ?_⟩
      · simp only [List.mem_cons, List.mem_singleton, List.not_mem_nil, or_false] at hk
        unfold storageToCapability storageCapability
        simp only
        rcases hk with e | e | e <;> rw [e] <;> decide
      · intro x _
        simp [storageIds]

theorem jobCaps_formatErr (enumerate : List Int → List Int) (params : StreamParameters)
    (h : ¬ FormatsKnown params) :
    JobCapabilities enumerate params = (none, some CapError.capFormatConv) := by
  have hex : ∃ v ∈ params.Profiles, v.Format ∉ [FormatNone, FormatMPEGTS, FormatMP4] := by
    by_contra hn
    apply h
    intro v hv
    by_contra hv2
    exact hn ⟨v, hv, hv2⟩
  unfold JobCapabilities
  simp only [profilesLoop_unknown _ _ hex]

theorem jobCaps_storageErr (enumerate : List Int → List Int) (params : StreamParameters)
    (hf : FormatsKnown params) (hs : StorageUnknown params) :
    JobCapabilities enumerate params = (none, some CapError.capStorageConv) := by
  obtain ⟨out, ho, _⟩ := profilesLoop_known params.Profiles (CapMap.set [] Capability_H264) hf
  unfold JobCapabilities
  simp only [ho, storageToCapability_unknown params hs]

theorem jobCaps_ok (enumerate : List Int → List Int) (params : StreamParameters)
    (hf : FormatsKnown params) (hs : ¬ StorageUnknown params) :
    ∃ keys, JobCapabilities enumerate params =
        (some ⟨NewCapabilityString (enumerate keys), ⟨⟩⟩, none) ∧
      ∀ x : Int, 0 ≤ x → (x ∈ keys ↔ x ∈ requiredIds params) := by
  obtain ⟨out, ho, hm⟩ := profilesLoop_known params.Profiles (CapMap.set [] Capability_H264) hf
  obtain ⟨c, hc, hcm⟩ := storageToCapability_known params hs
  refine ⟨CapMap.set out c, ?_, ?_⟩
  · unfold JobCapabilities
    simp only [ho, hc]
  · intro x hx
    rw [capMap_mem_set, hm x, capMap_mem_set, hcm x hx]
    unfold requiredIds
    simp only [List.mem_append, List.mem_singleton, List.not_mem_nil, false_or]
    by_cases ha : (params.Profiles.any (fun v => decide (v.FramerateDen > 0))) = true
    · simp only [ha, if_true, List.mem_singleton, true_and]
      tauto
    · simp only [ha, if_false, List.not_mem_nil, false_and]
      tauto

theorem jobCaps_ok_perm (enumerate : List Int → List Int)
    (hEnum : ∀ l, (enumerate l).Perm l) (params : StreamParameters)
    (hf : FormatsKnown params) (hs : ¬ StorageUnknown params) :
    JobCapabilities enumerate params = (some (NewCapabilities (requiredIds params)), none) := by
  obtain ⟨keys, hk, hm⟩ := jobCaps_ok enumerate params hf hs
  rw [hk]
  unfold NewCapabilities
  rw [newCap_congr (enumerate keys) (requiredIds params)
    (fun x hx => ((hEnum keys).mem_iff).trans (hm x hx))]

/-! ## The claims -/

theorem bitSet_zero_word (i j : Nat) : bitSet [0] i j = false := by
  rw [bitSet_eq_getD]
  cases i with
  | zero => simp
  | succ n => simp

theorem exists_bit_of_ne_zero (w : Nat) (hw : w < wordSize) (h0 : w ≠ 0) :
    ∃ j, j < 64 ∧ w.testBit j = true := by
  obtain ⟨j, hj⟩ := Nat.ne_zero_implies_bit_true h0
  refine ⟨j, ?_, hj⟩
  by_contra hge
  have hp : wordSize ≤ 2 ^ j := Nat.pow_le_pow_right (by decide) (by omega)
  rw [Nat.testBit_lt_two_pow (lt_of_lt_of_le hw hp)] at hj
  cases hj

theorem length_le_of_bits (A B : CapabilityString) (hA : WordsOK A)
    (hlast : A.getLast? ≠ some 0)
    (hbits : ∀ i j, j < 64 → bitSet A i j = true → bitSet B i j = true) :
    A.length ≤ B.length := by
  by_contra hlt
  have hpos : 0 < A.length := by omega
  have hi : A.length - 1 < A.length := by omega
  have hget : A.getLast? = some (A[A.length - 1]) := by
    rw [List.getLast?_eq_getElem?, List.getElem?_eq_getElem hi]
  have hne : A[A.length - 1] ≠ 0 := by
    intro e
    rw [e] at hget
    exact hlast hget
  obtain ⟨j, hj, hb⟩ := exists_bit_of_ne_zero _ (hA _ (List.getElem_mem _)) hne
  have h1 : bitSet A (A.length - 1) j = true := by
    unfold bitSet
    rw [List.getElem?_eq_getElem hi]
    exact hb
  have h2 := hbits _ _ hj h1
  unfold bitSet at h2
  rw [List.getElem?_eq_none (by omega)] at h2
  cases h2

/-- C1, counterexample: the one-word bitstring `[0]` has no bit set, so every bit
set in it is set in the empty bitstring, and yet `CompatibleWith` returns false
on the pair, `[0]` being the longer one. -/
theorem C1_counterexample :
    WordsOK [0] ∧ WordsOK [] ∧
      ¬ (CapabilityString.CompatibleWith [0] [] = some true ↔
          ∀ i j, j < 64 → bitSet [0] i j = true → bitSet [] i j = true) := by
  refine ⟨by decide, by decide, ?_⟩
  intro h
  have hall : ∀ i j, j < 64 → bitSet [0] i j = true → bitSet [] i j = true := by
    intro i j _ hb
    rw [bitSet_zero_word] at hb
    cases hb
  have := h.2 hall
  revert this
  decide

/-- C1, amended: for bitstrings `A` and `B` of 64-bit words, `CompatibleWith`
returns, and it returns true if and only if `A` has no more words than `B` and
every bit set in `A` is also set in `B`; when `A` is empty or its last word is
non-zero, the condition on the lengths follows from the condition on the bits. -/
theorem compatibleWith_iff_subset (A B : CapabilityString) (hA : WordsOK A) :
    (∃ b, CapabilityString.CompatibleWith A B = some b) ∧
    (CapabilityString.CompatibleWith A B = some true ↔
      A.length ≤ B.length ∧
        ∀ i j, j < 64 → bitSet A i j = true → bitSet B i j = true) ∧
    (A.getLast? ≠ some 0 →
      (CapabilityString.CompatibleWith A B = some true ↔
        ∀ i j, j < 64 → bitSet A i j = true → bitSet B i j = true)) := by
  refine ⟨compatibleWith_isSome A B, compatibleWith_true_iff_bits A B hA, ?_⟩
  intro hlast
  rw [compatibleWith_true_iff_bits A B hA]
  constructor
  · exact fun h => h.2
  · exact fun h => ⟨length_le_of_bits A B hA hlast h, h⟩

theorem compatibleWith_iff_subset_witness :
    CapabilityString.CompatibleWith [5, 2] [7, 6, 1] = some true ∧
      [5, 2].length ≤ [7, 6, 1].length ∧
      bitSet [7, 6, 1] 1 1 = true :=
  have h := compatibleWith_iff_subset [5, 2] [7, 6, 1] (by decide)
  ⟨by decide, (h.2.1.1 (by decide)).1, (h.2.1.1 (by decide)).2 1 1 (by decide) (by decide)⟩

theorem newCap_length_of_max (caps : List Int) (m : Int) (hm : m ∈ caps) (h0 : 0 ≤ m)
    (hmax : ∀ c ∈ caps, c ≤ m) : (NewCapabilityString caps).length = m.toNat / 64 + 1 := by
  apply length_eq_of_lt_iff
  intro k
  rw [newCap_length]
  constructor
  · rintro ⟨c, hc, hc0, hk⟩
    have := hmax c hc
    omega
  · intro hk
    exact ⟨m, hm, h0, by omega⟩

theorem newCap_getLast_ne_zero (caps : List Int) : (NewCapabilityString caps).getLast? ≠ some 0 := by
  intro h
  rw [List.getLast?_eq_getElem?] at h
  have hpos : (NewCapabilityString caps).length - 1 < (NewCapabilityString caps).length := by
    by_contra hn
    rw [List.getElem?_eq_none (by omega)] at h
    cases h
  obtain ⟨c, hc, hc0, hk⟩ := (newCap_length caps _).1 hpos
  have hlt : c.toNat / 64 < (NewCapabilityString caps).length :=
    (newCap_length caps _).2 ⟨c, hc, hc0, le_refl _⟩
  have hi : c.toNat / 64 = (NewCapabilityString caps).length - 1 := by omega
  have hbit : bitSet (NewCapabilityString caps) (c.toNat / 64) (c.toNat % 64) = true := by
    rw [newCap_bit caps _ _ (Nat.mod_lt _ (by decide))]
    have e : (64 * ((c.toNat / 64 : Nat) : Int) + ((c.toNat % 64 : Nat) : Int)) = c := by
      omega
    rw [e]
    exact hc
  unfold bitSet at hbit
  rw [hi, h] at hbit
  simp at hbit

theorem newCap_length_last (caps : List Int) (m : Int) (hm : m ∈ caps) (hu : (-1 : Int) < m)
    (hmax : ∀ c ∈ caps, c ≤ m) :
    ((NewCapabilityString caps).length : Int) = m / 64 + 1 ∧
      ∃ w, (NewCapabilityString caps).getLast? = some w ∧ w ≠ 0 := by
  have h0 : 0 ≤ m := by omega
  have hlen := newCap_length_of_max caps m hm h0 hmax
  constructor
  · rw [hlen]
    omega
  · cases hl : (NewCapabilityString caps).getLast? with
    | none =>
      rw [List.getLast?_eq_getElem?, List.getElem?_eq_none_iff] at hl
      omega
    | some w =>
      refine ⟨w, rfl, ?_⟩
      intro e
      rw [e] at hl
      exact newCap_getLast_ne_zero caps hl

/-- C2: bit `j` of word `i` of `NewCapabilityString caps` is set if and only if
the id `64 * i + j` occurs in `caps`; the ids at or below `Capability_Unused` set
no bit, leaving the bitstring as it is; and the three bitstrings of
`TestCapability_NewString` are the ones the test expects. -/
theorem newCapabilityString_bits (caps : List Capability) (i j : Nat) (hj : j < 64) :
    (bitSet (NewCapabilityString caps) i j = true ↔ ((64 * i + j : Int) ∈ caps)) ∧
    (∀ (s : CapabilityString) (v : Capability), v ≤ Capability_Unused → setCap s v = s) ∧
    NewCapabilityString (caps.filter (fun v => decide (Capability_Unused < v)))
      = NewCapabilityString caps ∧
    NewCapabilityString [-10, -1, 0, 1, 2, 3, 4, 5] = [63] ∧
    NewCapabilityString [193, 192] = [0, 0, 0, 3] ∧
    NewCapabilityString [193, 54, 192, 79] = [2 ^ 54, 2 ^ 15, 0, 3] := by
  refine ⟨newCap_bit caps i j hj, fun s v hv => setCap_skip s v hv, ?_, by decide, by decide,
    by decide⟩
  apply newCap_congr
  intro x hx
  have hu : Capability_Unused < x := by
    show (-1 : Int) < x
    omega
  simp [List.mem_filter, hu]

theorem newCapabilityString_bits_witness :
    bitSet (NewCapabilityString [193, 54, 192, 79]) 1 15 = true :=
  (newCapabilityString_bits [193, 54, 192, 79] 1 15 (by decide)).1.2 (by decide)

/-- C3: for a list `C` of non-negative ids and any list `D`, the bitstring of
`C` is compatible with the bitstring of `D` if and only if every id of `C` occurs
in `D`. Hence for a duplicate-free list `caps` of non-negative ids and a list
`sub` obtained from it by removing `k` elements (in any order), the bitstring of
`sub` is compatible with that of `caps`, the converse fails when `k > 0`, and the
two bitstrings are equal when `k = 0`. -/
theorem newCapabilityString_compatible_iff (C D : List Capability)
    (hC : ∀ c ∈ C, 0 ≤ c) :
    (CapabilityString.CompatibleWith (NewCapabilityString C) (NewCapabilityString D) = some true
      ↔ ∀ c ∈ C, c ∈ D) ∧
    (∀ (caps sub : List Capability) (k : Nat), (∀ c ∈ caps, 0 ≤ c) → caps.Nodup →
      sub.Subperm caps → sub.length + k = caps.length →
        CapabilityString.CompatibleWith (NewCapabilityString sub) (NewCapabilityString caps)
          = some true ∧
        (0 < k →
          CapabilityString.CompatibleWith (NewCapabilityString caps) (NewCapabilityString sub)
            = some false) ∧
        (k = 0 → NewCapabilityString caps = NewCapabilityString sub)) := by
  constructor
  · rw [newCap_compatible_iff]
    constructor
    · exact fun h c hc => h c hc (hC c hc)
    · exact fun h c hc _ => h c hc
  · intro caps sub k hnn hnd hsub hlen
    refine ⟨?_, ?_, ?_⟩
    · rw [newCap_compatible_iff]
      exact fun c hc _ => hsub.subset hc
    · intro hk
      obtain ⟨b, hb⟩ := compatibleWith_isSome (NewCapabilityString caps) (NewCapabilityString sub)
      cases b with
      | false => exact hb
      | true =>
        exfalso
        have hall := (newCap_compatible_iff caps sub).1 hb
        have hss : caps ⊆ sub := fun c hc => hall c hc (hnn c hc)
        have := (List.subperm_of_subset hnd hss).length_le
        omega
    · intro hk
      have hperm : sub.Perm caps := hsub.perm_of_length_le (by omega)
      exact newCap_congr caps sub (fun x _ => hperm.mem_iff.symm)

theorem newCapabilityString_compatible_iff_witness :
    CapabilityString.CompatibleWith (NewCapabilityString [1, 70]) (NewCapabilityString [70, 2, 1])
        = some true ∧
      CapabilityString.CompatibleWith (NewCapabilityString [0, 1, 2, 65])
        (NewCapabilityString [65, 1]) = some false :=
  have h := newCapabilityString_compatible_iff [1, 70] [70, 2, 1] (by decide)
  ⟨h.1.2 (by decide),
    (h.2 [0, 1, 2, 65] [65, 1] 2 (by decide) (by decide) (by decide) (by decide)).2.1
      (by decide)⟩

/-- C4: two lists of capability ids that contain the same ids, in any order and
with any multiplicities, give the same word sequence. -/
theorem newCapabilityString_congr (l₁ l₂ : List Capability) (h : ∀ x, x ∈ l₁ ↔ x ∈ l₂) :
    NewCapabilityString l₁ = NewCapabilityString l₂ :=
  newCap_congr l₁ l₂ (fun x _ => h x)

theorem newCapabilityString_congr_witness :
    NewCapabilityString [3, 1, 3, 70] = NewCapabilityString [70, 1, 3] :=
  newCapabilityString_congr [3, 1, 3, 70] [70, 1, 3] (by intro x; simp; tauto)

/-- C5: `NewCapabilityString caps` has no trailing zero word: it is empty when
no id of `caps` is above `Capability_Unused`, and otherwise its length is
`m / 64 + 1` for the largest id `m` of `caps` and its last word is non-zero. -/
theorem newCapabilityString_trimmed (caps : List Capability) :
    ((∀ c ∈ caps, c ≤ Capability_Unused) → NewCapabilityString caps = []) ∧
    (∀ m ∈ caps, Capability_Unused < m → (∀ c ∈ caps, c ≤ m) →
      ((NewCapabilityString caps).length : Int) = m / 64 + 1 ∧
      ∃ w, (NewCapabilityString caps).getLast? = some w ∧ w ≠ 0) ∧
    (NewCapabilityString caps).getLast? ≠ some 0 := by
  refine ⟨?_, ?_, newCap_getLast_ne_zero caps⟩
  · intro h
    apply List.eq_nil_of_length_eq_zero
    by_contra hne
    obtain ⟨c, hc, hc0, _⟩ :=
      (newCap_length caps 0).1 (Nat.pos_of_ne_zero hne)
    have hle : c ≤ (-1 : Int) := h c hc
    omega
  · intro m hm hu hmax
    exact newCap_length_last caps m hm hu hmax

theorem newCapabilityString_trimmed_witness :
    ((NewCapabilityString [193, 54, 192, 79]).length : Int) = 193 / 64 + 1 ∧
      ∃ w, (NewCapabilityString [193, 54, 192, 79]).getLast? = some w ∧ w ≠ 0 :=
  (newCapabilityString_trimmed [193, 54, 192, 79]).2.1 193 (by decide) (by decide) (by decide)

/-- C6, counterexample: the "unused" id is not zero, and the bitstring of
`[-10, -1, 0, 1, 2, 3, 4, 5]` is not `[62]`: the id 0 is H264 and sets bit 0. -/
theorem C6_counterexample :
    Capability_Unused ≠ 0 ∧ NewCapabilityString [-10, -1, 0, 1, 2, 3, 4, 5] ≠ [62] := by
  constructor <;> decide

/-- C6, amended: the "unused" id is `-1` (the id 0 is H264), it contributes no
bit, and the bitstring of `[-10, -1, 0, 1, 2, 3, 4, 5]` is the single word 63,
bits 0 to 5 set, as `TestCapability_NewString` expects. -/
theorem unused_sets_no_bit :
    Capability_Unused = -1 ∧ Capability_H264 = 0 ∧
    (∀ s : CapabilityString, setCap s Capability_Unused = s) ∧
    NewCapabilityString [Capability_Unused] = [] ∧
    NewCapabilityString [-10, -1, 0, 1, 2, 3, 4, 5] = [63] ∧
    (∀ i j, bitSet (NewCapabilityString [-10, -1, 0, 1, 2, 3, 4, 5]) i j = true ↔
      i = 0 ∧ j ≤ 5) := by
  refine ⟨rfl, rfl, fun s => setCap_skip s _ (le_refl _), by decide, by decide, ?_⟩
  intro i j
  have e : NewCapabilityString [-10, -1, 0, 1, 2, 3, 4, 5] = [63] := by decide
  rw [e, bitSet_eq_getD]
  cases i with
  | zero =>
    simp only [List.getD_cons_zero, true_and]
    by_cases hj : j < 6
    · have : j = 0 ∨ j = 1 ∨ j = 2 ∨ j = 3 ∨ j = 4 ∨ j = 5 := by omega
      rcases this with h | h | h | h | h | h <;> subst h <;> decide
    · rw [Nat.testBit_lt_two_pow
        (lt_of_lt_of_le (by decide : 63 < 2 ^ 6) (Nat.pow_le_pow_right (by decide) (by omega)))]
      simp
      omega
  | succ n => simp

theorem mem_legacy_iff (c : Int) : c ∈ legacyCapabilities ↔ 0 ≤ c ∧ c ≤ 6 := by
  unfold legacyCapabilities Capability_H264 Capability_MPEGTS Capability_MP4
    Capability_FractionalFramerates Capability_StorageDirect Capability_StorageS3
    Capability_StorageGCS
  simp only [List.mem_cons, List.mem_singleton, List.not_mem_nil, or_false]
  omega

theorem legacyOnly_new_iff (caps : List Int) :
    Capabilities.LegacyOnly (some (NewCapabilities caps)) = some true ↔
      ∀ c ∈ caps, (-1 : Int) < c → c ∈ legacyCapabilities := by
  show CapabilityString.CompatibleWith (NewCapabilityString caps)
    (NewCapabilityString legacyCapabilities) = some true ↔ _
  rw [newCap_compatible_iff]
  constructor
  · intro h c hc hu
    exact h c hc (by omega)
  · intro h c hc h0
    exact h c hc (by omega)

/-- C7: `LegacyOnly` of a non-nil `Capabilities` is `CompatibleWith` of its
bitstring against `legacyCapabilityString`; it returns, and on
`NewCapabilities caps` it returns true exactly when every id of `caps` above
`Capability_Unused` is one of the seven legacy capabilities. -/
theorem legacyOnly_iff (caps : List Capability) :
    (∀ b : Capabilities, Capabilities.LegacyOnly (some b)
      = CapabilityString.CompatibleWith b.bitstring legacyCapabilityString) ∧
    (∃ r, Capabilities.LegacyOnly (some (NewCapabilities caps)) = some r) ∧
    (Capabilities.LegacyOnly (some (NewCapabilities caps)) = some true ↔
      ∀ c ∈ caps, Capability_Unused < c →
        c ∈ [Capability_H264, Capability_MPEGTS, Capability_MP4,
          Capability_FractionalFramerates, Capability_StorageDirect, Capability_StorageS3,
          Capability_StorageGCS]) :=
  ⟨fun _ => rfl, compatibleWith_isSome _ _, legacyOnly_new_iff caps⟩

/-- C8: on a nil receiver `LegacyOnly` returns false, and `CompatibleWith`
returns false whatever is advertised: a nil advertisement, an empty one, one
with every bit of a word set. -/
theorem nil_fails_closed :
    Capabilities.LegacyOnly none = some false ∧
    (∀ orch : Option NetCapabilities, Capabilities.CompatibleWith none orch = some false) ∧
    Capabilities.CompatibleWith none none = some false ∧
    Capabilities.CompatibleWith none (some ⟨[2 ^ 64 - 1]⟩) = some false :=
  ⟨rfl, fun _ => rfl, rfl, rfl⟩

theorem requiredIds_perm (p q : StreamParameters) (hp : q.Profiles.Perm p.Profiles)
    (hos : q.OS = p.OS) (x : Int) : x ∈ requiredIds q ↔ x ∈ requiredIds p := by
  have hany : q.Profiles.any (fun v => decide (v.FramerateDen > 0))
      = p.Profiles.any (fun v => decide (v.FramerateDen > 0)) := by
    rw [Bool.eq_iff_iff, List.any_eq_true, List.any_eq_true]
    constructor
    · rintro ⟨v, hv, h⟩
      exact ⟨v, hp.mem_iff.1 hv, h⟩
    · rintro ⟨v, hv, h⟩
      exact ⟨v, hp.mem_iff.2 hv, h⟩
  unfold requiredIds
  rw [hany, hos]
  simp only [List.mem_append]
  rw [(hp.map (fun v => formatCapability v.Format)).mem_iff]

theorem jobCaps_success_inv (enumerate : List Int → List Int) (params : StreamParameters)
    (r : Capabilities) (h : JobCapabilities enumerate params = (some r, none)) :
    FormatsKnown params ∧ ¬ StorageUnknown params := by
  by_cases hf : FormatsKnown params
  · refine ⟨hf, ?_⟩
    intro hs
    rw [jobCaps_storageErr enumerate params hf hs] at h
    cases h
  · rw [jobCaps_formatErr enumerate params hf] at h
    cases h

/-- C9: when `JobCapabilities` succeeds, whatever the order in which the keys
of the map are enumerated, its result is `NewCapabilities` of the required ids
(H264, the capability of each profile's format, FractionalFramerates when some
profile has a positive `FramerateDen`, the storage capability when a session
with info is present), and of every list that holds the same ids; the result
is the same for another enumeration order and another order of the profiles.
The two examples of `TestCapability_JobCapabilities` are as the test expects. -/
theorem jobCapabilities_eq (enumerate : List Capability → List Capability)
    (hEnum : ∀ l, (enumerate l).Perm l) :
    (∀ (params : StreamParameters) (r : Capabilities),
      JobCapabilities enumerate params = (some r, none) →
        r = NewCapabilities (requiredIds params) ∧
        (∀ S : List Capability, (∀ x, x ∈ S ↔ x ∈ requiredIds params) →
          r = NewCapabilities S) ∧
        (∀ (enumerate₂ : List Capability → List Capability) (params₂ : StreamParameters),
          (∀ l, (enumerate₂ l).Perm l) → params₂.Profiles.Perm params.Profiles →
            params₂.OS = params.OS →
              JobCapabilities enumerate₂ params₂ = (some r, none))) ∧
    JobCapabilities enumerate ⟨[], none⟩ = (some (NewCapabilities [Capability_H264]), none) ∧
    JobCapabilities enumerate
        ⟨[⟨FormatMPEGTS, 0⟩, ⟨FormatMP4, 0⟩, ⟨0, 1⟩], some ⟨some ⟨OSInfo_S3⟩⟩⟩
      = (some (NewCapabilities [Capability_H264, Capability_MPEGTS, Capability_MP4,
          Capability_FractionalFramerates, Capability_StorageS3]), none) := by
  refine ⟨?_, ?_, ?_⟩
  · intro params r h
    obtain ⟨hf, hs⟩ := jobCaps_success_inv enumerate params r h
    have hr : r = NewCapabilities (requiredIds params) := by
      rw [jobCaps_ok_perm enumerate hEnum params hf hs] at h
      cases h
      rfl
    refine ⟨hr, ?_, ?_⟩
    · intro S hS
      rw [hr]
      unfold NewCapabilities
      rw [newCap_congr S (requiredIds params) (fun x _ => hS x)]
    · intro enumerate₂ params₂ hEnum₂ hperm hos
      have hf₂ : FormatsKnown params₂ := fun v hv => hf v (hperm.mem_iff.1 hv)
      have hs₂ : ¬ StorageUnknown params₂ := by
        rintro ⟨session, info, h1, h2, h3⟩
        exact hs ⟨session, info, hos ▸ h1, h2, h3⟩
      rw [jobCaps_ok_perm enumerate₂ hEnum₂ params₂ hf₂ hs₂, hr]
      unfold NewCapabilities
      rw [newCap_congr (requiredIds params₂) (requiredIds params)
        (fun x _ => requiredIds_perm params params₂ hperm hos x)]
  · rw [jobCaps_ok_perm enumerate hEnum ⟨[], none⟩
      (fun v hv => by cases hv)
      (by rintro ⟨session, info, h1, _, _⟩; cases h1)]
    rfl
  · rw [jobCaps_ok_perm enumerate hEnum
      ⟨[⟨FormatMPEGTS, 0⟩, ⟨FormatMP4, 0⟩, ⟨0, 1⟩], some ⟨some ⟨OSInfo_S3⟩⟩⟩
      (by decide)
      (by
        rintro ⟨session, info, h1, h2, h3⟩
        cases h1
        cases h2
        exact h3 (by decide))]
    decide

theorem jobCapabilities_eq_witness :
    JobCapabilities List.reverse ⟨[⟨FormatMP4, 0⟩, ⟨FormatMPEGTS, 3⟩], some ⟨none⟩⟩
        = (some (NewCapabilities [0, 1, 2, 3]), none) ∧
      NewCapabilities [0, 1, 2, 3]
        = NewCapabilities (requiredIds ⟨[⟨FormatMP4, 0⟩, ⟨FormatMPEGTS, 3⟩], some ⟨none⟩⟩) :=
  ⟨by decide,
    ((jobCapabilities_eq List.reverse (fun l => List.reverse_perm l)).1
      ⟨[⟨FormatMP4, 0⟩, ⟨FormatMPEGTS, 3⟩], some ⟨none⟩⟩ (NewCapabilities [0, 1, 2, 3])
      (by decide)).1⟩

/-- C10: `JobCapabilities` returns `(nil, capFormatConv)` exactly when some
profile has a format outside `FormatNone`, `FormatMPEGTS`, `FormatMP4`; it
returns `(nil, capStorageConv)` exactly when every format is recognised and a
storage session with non-nil info has a storage type outside `S3`, `GOOGLE`,
`DIRECT`; it returns a non-nil `Capabilities` and a nil error exactly in the
remaining case. A nil session and a session with nil info are classified as
`Capability_Unused` without error. -/
theorem jobCapabilities_errors (enumerate : List Capability → List Capability)
    (params : StreamParameters) :
    (JobCapabilities enumerate params = (none, some CapError.capFormatConv) ↔
      ∃ v ∈ params.Profiles, v.Format ∉ [FormatNone, FormatMPEGTS, FormatMP4]) ∧
    (JobCapabilities enumerate params = (none, some CapError.capStorageConv) ↔
      (∀ v ∈ params.Profiles, v.Format ∈ [FormatNone, FormatMPEGTS, FormatMP4]) ∧
      ∃ session info, params.OS = some session ∧ session.GetInfo = some info ∧
        info.StorageType ∉ [OSInfo_S3, OSInfo_GOOGLE, OSInfo_DIRECT]) ∧
    ((∃ c, JobCapabilities enumerate params = (some c, none)) ↔
      (∀ v ∈ params.Profiles, v.Format ∈ [FormatNone, FormatMPEGTS, FormatMP4]) ∧
      ¬ ∃ session info, params.OS = some session ∧ session.GetInfo = some info ∧
        info.StorageType ∉ [OSInfo_S3, OSInfo_GOOGLE, OSInfo_DIRECT]) ∧
    storageToCapability none = (Capability_Unused, none) ∧
    storageToCapability (some ⟨none⟩) = (Capability_Unused, none) := by
  have hnot : (∃ v ∈ params.Profiles, v.Format ∉ [FormatNone, FormatMPEGTS, FormatMP4]) ↔
      ¬ FormatsKnown params := by
    unfold FormatsKnown
    constructor
    · rintro ⟨v, hv, hn⟩ h
      exact hn (h v hv)
    · intro h
      by_contra hn
      apply h
      intro v hv
      by_contra hv2
      exact hn ⟨v, hv, hv2⟩
  refine ⟨?_, ?_, ?_, rfl, rfl⟩
  · rw [hnot]
    constructor
    · intro h hf
      by_cases hs : StorageUnknown params
      · rw [jobCaps_storageErr enumerate params hf hs] at h
        cases h
      · obtain ⟨keys, hk, _⟩ := jobCaps_ok enumerate params hf hs
        rw [hk] at h
        cases h
    · exact jobCaps_formatErr enumerate params
  · show _ ↔ FormatsKnown params ∧ StorageUnknown params
    constructor
    · intro h
      by_cases hf : FormatsKnown params
      · refine ⟨hf, ?_⟩
        by_contra hs
        obtain ⟨keys, hk, _⟩ := jobCaps_ok enumerate params hf hs
        rw [hk] at h
        cases h
      · rw [jobCaps_formatErr enumerate params hf] at h
        cases h
    · rintro ⟨hf, hs⟩
      exact jobCaps_storageErr enumerate params hf hs
  · show _ ↔ FormatsKnown params ∧ ¬ StorageUnknown params
    constructor
    · rintro ⟨c, h⟩
      exact jobCaps_success_inv enumerate params c h
    · rintro ⟨hf, hs⟩
      obtain ⟨keys, hk, _⟩ := jobCaps_ok enumerate params hf hs
      exact ⟨_, hk⟩

/-! ## Lemmas on the suspension queue and on the top-up loop -/

theorem mem_push (q : suspensionQueue) (s x : suspension) :
    x ∈ suspensionQueue.Push q s ↔ x ∈ q ∨ x = s := by
  induction q with
  | nil => simp [suspensionQueue.Push]
  | cons t rest ih =>
    unfold suspensionQueue.Push
    split
    · simp only [List.mem_cons]
      tauto
    · simp only [List.mem_cons, ih]
      tauto

theorem push_length (q : suspensionQueue) (s : suspension) :
    (suspensionQueue.Push q s).length = q.length + 1 := by
  induction q with
  | nil => rfl
  | cons t rest ih =>
    unfold suspensionQueue.Push
    split
    · rfl
    · simp only [List.length_cons, ih]

theorem push_sorted (q : suspensionQueue) (s : suspension)
    (h : q.Pairwise (fun a b => a.penalty ≤ b.penalty)) :
    (suspensionQueue.Push q s).Pairwise (fun a b => a.penalty ≤ b.penalty) := by
  induction q with
  | nil => simp [suspensionQueue.Push]
  | cons t rest ih =>
    rw [List.pairwise_cons] at h
    unfold suspensionQueue.Push
    split
    · rename_i hlt
      rw [List.pairwise_cons]
      refine ⟨?_, List.pairwise_cons.2 h⟩
      intro b hb
      rcases List.mem_cons.1 hb with e | hb
      · rw [e]
        omega
      · have := h.1 b hb
        omega
    · rename_i hge
      rw [List.pairwise_cons]
      refine ⟨?_, ih h.2⟩
      intro b hb
      rcases (mem_push rest s b).1 hb with hb | e
      · exact h.1 b hb
      · rw [e]
        omega

theorem foldl_push_mem (l : List suspension) (q : suspensionQueue) (x : suspension) :
    x ∈ l.foldl suspensionQueue.Push q ↔ x ∈ q ∨ x ∈ l := by
  induction l generalizing q with
  | nil => simp
  | cons s rest ih =>
    rw [List.foldl_cons, ih, mem_push, List.mem_cons]
    tauto

theorem foldl_push_length (l : List suspension) (q : suspensionQueue) :
    (l.foldl suspensionQueue.Push q).length = q.length + l.length := by
  induction l generalizing q with
  | nil => rfl
  | cons s rest ih =>
    rw [List.foldl_cons, ih, push_length, List.length_cons]
    omega

theorem foldl_push_sorted (l : List suspension) (q : suspensionQueue)
    (h : q.Pairwise (fun a b => a.penalty ≤ b.penalty)) :
    (l.foldl suspensionQueue.Push q).Pairwise (fun a b => a.penalty ≤ b.penalty) := by
  induction l generalizing q with
  | nil => exact h
  | cons s rest ih => exact ih _ (push_sorted q s h)

theorem queueOf_mem (l : List suspension) (x : suspension) : x ∈ queueOf l ↔ x ∈ l := by
  unfold queueOf newSuspensionQueue
  rw [foldl_push_mem]
  simp

theorem queueOf_length (l : List suspension) : (queueOf l).length = l.length := by
  unfold queueOf newSuspensionQueue
  rw [foldl_push_length]
  simp

theorem queueOf_sorted (l : List suspension) :
    (queueOf l).Pairwise (fun a b => a.penalty ≤ b.penalty) :=
  foldl_push_sorted l _ List.Pairwise.nil

theorem queueOf_append (l : List suspension) (s : suspension) :
    queueOf (l ++ [s]) = suspensionQueue.Push (queueOf l) s := by
  unfold queueOf
  rw [List.foldl_append]
  rfl

theorem topUpLoop_eq (k : Nat) (q : suspensionQueue) (infos : List OrchestratorInfo) :
    topUpLoop k q infos = infos ++ (q.take k).map suspension.orch := by
  induction k generalizing q infos with
  | zero => simp [topUpLoop]
  | succ k ih =>
    cases q with
    | nil => simp [topUpLoop, suspensionQueue.Len]
    | cons s rest =>
      unfold topUpLoop
      simp only [suspensionQueue.Len, List.length_cons, Nat.zero_lt_succ, if_true,
        suspensionQueue.Pop]
      rw [ih]
      simp

/-! ## Lemmas on the collection loop -/

theorem consumed_succ (events : Nat → ChanEvent) (k : Nat) :
    consumed events (k + 1) = consumed events k ++ [events k] := by
  unfold consumed
  rw [List.range_succ, List.map_append]
  rfl

theorem mem_consumed (events : Nat → ChanEvent) (k : Nat) (e : ChanEvent) :
    e ∈ consumed events k ↔ ∃ j, j < k ∧ events j = e := by
  unfold consumed
  simp [List.mem_map, List.mem_range]

theorem accepted_append (suspender : String → Int) (l : List ChanEvent) (e : ChanEvent) :
    accepted suspender (l ++ [e]) = accepted suspender l ++ accepted suspender [e] := by
  unfold accepted
  rw [List.filterMap_append, List.filter_append]

theorem deferred_append (suspender : String → Int) (l : List ChanEvent) (e : ChanEvent) :
    deferred suspender (l ++ [e]) = deferred suspender l ++ deferred suspender [e] := by
  unfold deferred
  rw [List.filterMap_append, List.filter_append, List.map_append]

theorem mem_accepted (suspender : String → Int) (l : List ChanEvent) (x : OrchestratorInfo) :
    x ∈ accepted suspender l ↔ ChanEvent.info x ∈ l ∧ suspender x.Transcoder = 0 := by
  unfold accepted
  rw [List.mem_filter, List.mem_filterMap]
  constructor
  · rintro ⟨⟨e, he, hn⟩, hz⟩
    cases e with
    | info y =>
      simp only [ChanEvent.node, Option.some.injEq] at hn
      subst hn
      exact ⟨he, by simpa using hz⟩
    | err => simp [ChanEvent.node] at hn
    | done => simp [ChanEvent.node] at hn
  · rintro ⟨he, hz⟩
    exact ⟨⟨_, he, rfl⟩, by simpa using hz⟩

theorem mem_deferred (suspender : String → Int) (l : List ChanEvent) (s : suspension) :
    s ∈ deferred suspender l ↔
      ChanEvent.info s.orch ∈ l ∧ suspender s.orch.Transcoder ≠ 0 ∧
        s.penalty = suspender s.orch.Transcoder := by
  unfold deferred
  rw [List.mem_map]
  constructor
  · rintro ⟨x, hx, rfl⟩
    rw [List.mem_filter, List.mem_filterMap] at hx
    obtain ⟨⟨e, he, hn⟩, hz⟩ := hx
    cases e with
    | info y =>
      simp only [ChanEvent.node, Option.some.injEq] at hn
      subst hn
      exact ⟨he, by simpa using hz, rfl⟩
    | err => simp [ChanEvent.node] at hn
    | done => simp [ChanEvent.node] at hn
  · rintro ⟨he, hz, hp⟩
    refine ⟨s.orch, ?_, ?_⟩
    · rw [List.mem_filter, List.mem_filterMap]
      exact ⟨⟨_, he, rfl⟩, by simpa using hz⟩
    · cases s
      simp only at hp
      simp [hp]

theorem collectStep_i (suspender : String → Int) (ev : ChanEvent) (st : CollectState) :
    (collectStep suspender ev st).i = st.i + 1 := by
  cases ev with
  | info x =>
    simp only [collectStep]
    split <;> rfl
  | err => rfl
  | done => rfl

theorem collectStep_inv (suspender : String → Int) (events : Nat → ChanEvent)
    (st : CollectState) (ht : st.timeout = false) (h : CollectInv suspender events st) :
    CollectInv suspender events (collectStep suspender (events st.i) st) := by
  obtain ⟨h1, h2, h3, _, h5, _⟩ := h
  have hno := h5 ht
  rw [ht] at h3
  simp only [Bool.false_eq_true, if_false, Nat.add_zero] at h3
  unfold CollectInv
  rw [collectStep_i, consumed_succ, accepted_append, deferred_append]
  have hprev : ∀ k, k + 1 < st.i + 1 → events k ≠ ChanEvent.done :=
    fun k hk => hno k (by omega)
  cases hev : events st.i with
  | info x =>
    unfold collectStep
    by_cases hz : suspender x.Transcoder = 0
    · simp only [hz, if_true]
      refine ⟨?_, ?_, ?_, hprev, ?_, ?_⟩
      · rw [h1]
        simp [accepted, ChanEvent.node, hz]
      · rw [h2]
        simp [deferred, ChanEvent.node, hz]
      · simp only [ht, Bool.false_eq_true, if_false]
        omega
      · intro _ k hk
        by_cases hk2 : k < st.i
        · exact hno k hk2
        · have : k = st.i := by omega
          rw [this, hev]
          exact fun e => ChanEvent.noConfusion e
      · intro hc
        rw [ht] at hc
        cases hc
    · simp only [hz, if_false]
      refine ⟨?_, ?_, ?_, hprev, ?_, ?_⟩
      · rw [h1]
        simp [accepted, ChanEvent.node, hz]
      · rw [h2, ← queueOf_append]
        simp [deferred, ChanEvent.node, hz]
      · simp only [ht, Bool.false_eq_true, if_false]
        omega
      · intro _ k hk
        by_cases hk2 : k < st.i
        · exact hno k hk2
        · have : k = st.i := by omega
          rw [this, hev]
          exact fun e => ChanEvent.noConfusion e
      · intro hc
        rw [ht] at hc
        cases hc
  | err =>
    unfold collectStep
    refine ⟨?_, ?_, ?_, hprev, ?_, ?_⟩
    · simp only [h1]
      simp [accepted, ChanEvent.node]
    · simp only [h2]
      simp [deferred, ChanEvent.node]
    · simp only [ht, Bool.false_eq_true, if_false]
      omega
    · intro _ k hk
      by_cases hk2 : k < st.i
      · exact hno k hk2
      · have : k = st.i := by omega
        rw [this, hev]
        exact fun e => ChanEvent.noConfusion e
    · intro hc
      simp only [ht] at hc
      cases hc
  | done =>
    unfold collectStep
    refine ⟨?_, ?_, ?_, hprev, ?_, ?_⟩
    · simp only [h1]
      simp [accepted, ChanEvent.node]
    · simp only [h2]
      simp [deferred, ChanEvent.node]
    · simp only [if_true]
      omega
    · intro hc
      cases hc
    · intro _
      exact ⟨Nat.succ_pos _, by simpa using hev⟩

theorem collectLoop_inv (n : Nat) (c : Int) (suspender : String → Int)
    (events : Nat → ChanEvent) (fuel : Nat) (st : CollectState)
    (h : CollectInv suspender events st) :
    CollectInv suspender events (collectLoop n c suspender events fuel st) := by
  induction fuel generalizing st with
  | zero => exact h
  | succ f ih =>
    unfold collectLoop
    split
    · rename_i hc
      exact ih _ (collectStep_inv suspender events st hc.2.2 h)
    · exact h

theorem collectInv_init (suspender : String → Int) (events : Nat → ChanEvent) :
    CollectInv suspender events ⟨0, [], newSuspensionQueue, 0, false⟩ := by
  refine ⟨rfl, rfl, rfl, ?_, ?_, ?_⟩
  · intro k hk
    exact absurd hk (Nat.not_lt_zero _)
  · intro _ k hk
    exact absurd hk (Nat.not_lt_zero _)
  · intro hc
    cases hc

theorem collectStep_infos_length (suspender : String → Int) (ev : ChanEvent) (st : CollectState) :
    (collectStep suspender ev st).infos.length ≤ st.infos.length + 1 := by
  cases ev with
  | info x =>
    simp only [collectStep]
    split
    · simp
    · simp
  | err => simp [collectStep]
  | done => simp [collectStep]

theorem collectLoop_bounds (n : Nat) (c : Int) (suspender : String → Int)
    (events : Nat → ChanEvent) (fuel : Nat) (st : CollectState)
    (hi : st.i ≤ n) (hl : (st.infos.length : Int) ≤ max c 0) :
    (collectLoop n c suspender events fuel st).i ≤ n ∧
      ((collectLoop n c suspender events fuel st).infos.length : Int) ≤ max c 0 := by
  induction fuel generalizing st with
  | zero => exact ⟨hi, hl⟩
  | succ f ih =>
    unfold collectLoop
    split
    · rename_i hc
      obtain ⟨h1, h2, _⟩ := hc
      apply ih
      · rw [collectStep_i]
        omega
      · have := collectStep_infos_length suspender (events st.i) st
        omega
    · exact ⟨hi, hl⟩

theorem collectLoop_done (n : Nat) (c : Int) (suspender : String → Int)
    (events : Nat → ChanEvent) (fuel : Nat) (st : CollectState) (hf : n - st.i ≤ fuel) :
    ¬ collectCond n c (collectLoop n c suspender events fuel st) := by
  induction fuel generalizing st with
  | zero =>
    intro hc
    have := hc.1
    simp only [collectLoop] at this
    omega
  | succ f ih =>
    unfold collectLoop
    split
    · apply ih
      rw [collectStep_i]
      omega
    · rename_i hc
      exact hc

theorem collectLoop_succ_end (n : Nat) (c : Int) (suspender : String → Int)
    (events : Nat → ChanEvent) (k : Nat) (st : CollectState) :
    collectLoop n c suspender events (k + 1) st =
      if collectCond n c (collectLoop n c suspender events k st) then
        collectStep suspender (events (collectLoop n c suspender events k st).i)
          (collectLoop n c suspender events k st)
      else collectLoop n c suspender events k st := by
  induction k generalizing st with
  | zero =>
    simp only [collectLoop]
  | succ k ih =>
    by_cases hc : collectCond n c st
    · have e1 : collectLoop n c suspender events (k + 1 + 1) st
          = collectLoop n c suspender events (k + 1)
              (collectStep suspender (events st.i) st) := by
        conv => lhs; unfold collectLoop
        rw [if_pos hc]
      have e2 : collectLoop n c suspender events (k + 1) st
          = collectLoop n c suspender events k (collectStep suspender (events st.i) st) := by
        conv => lhs; unfold collectLoop
        rw [if_pos hc]
      rw [e1, e2]
      exact ih _
    · have e1 : collectLoop n c suspender events (k + 1 + 1) st = st := by
        conv => lhs; unfold collectLoop
        rw [if_neg hc]
      have e2 : collectLoop n c suspender events (k + 1) st = st := by
        conv => lhs; unfold collectLoop
        rw [if_neg hc]
      rw [e1, e2, if_neg hc]

theorem collectLoop_stationary (n : Nat) (c : Int) (suspender : String → Int)
    (events : Nat → ChanEvent) (k : Nat) (st : CollectState)
    (h : ¬ collectCond n c (collectLoop n c suspender events k st)) (m : Nat) :
    collectLoop n c suspender events (k + m) st = collectLoop n c suspender events k st := by
  induction m with
  | zero => rfl
  | succ m ih =>
    rw [← Nat.add_assoc, collectLoop_succ_end, ih, if_neg h]

theorem collectLoop_i_le (n : Nat) (c : Int) (suspender : String → Int)
    (events : Nat → ChanEvent) (k : Nat) (st : CollectState) :
    (collectLoop n c suspender events k st).i ≤ st.i + k := by
  induction k with
  | zero => exact Nat.le_refl _
  | succ k ih =>
    rw [collectLoop_succ_end]
    split
    · rw [collectStep_i]
      omega
    · omega

theorem collectLoop_cond_before (n : Nat) (c : Int) (suspender : String → Int)
    (events : Nat → ChanEvent) (m k : Nat) (st : CollectState)
    (hk : st.i + k < (collectLoop n c suspender events m st).i) :
    collectCond n c (collectLoop n c suspender events k st) := by
  by_contra hc
  have hm := collectLoop_i_le n c suspender events m st
  have hkm : k ≤ m := by omega
  have hst := collectLoop_stationary n c suspender events k st hc (m - k)
  rw [Nat.add_sub_cancel' hkm] at hst
  rw [hst] at hk
  have := collectLoop_i_le n c suspender events k st
  omega

theorem collectLoop_i_eq (n : Nat) (c : Int) (suspender : String → Int)
    (events : Nat → ChanEvent) (m k : Nat) (st : CollectState)
    (hk : st.i + k ≤ (collectLoop n c suspender events m st).i) :
    (collectLoop n c suspender events k st).i = st.i + k := by
  induction k with
  | zero => rfl
  | succ k ih =>
    have hc := collectLoop_cond_before n c suspender events m k st (by omega)
    rw [collectLoop_succ_end, if_pos hc, collectStep_i, ih (by omega)]
    omega

/-! ## Lemmas on `GetOrchestrators` -/

theorem getOrchInfo_info (o : orchestratorPool) (caps : CapabilityComparator) (l : Bool)
    (a : Arrival) (x : OrchestratorInfo) (h : getOrchInfo o caps l a = ChanEvent.info x) :
    a = Arrival.reply (some x) ∧ isCompatible o caps l x = true := by
  cases a with
  | deadline => simp [getOrchInfo] at h
  | reply r =>
    cases r with
    | none => simp [getOrchInfo] at h
    | some y =>
      simp only [getOrchInfo] at h
      split at h
      · rename_i hc
        simp only [ChanEvent.info.injEq] at h
        subst h
        exact ⟨rfl, hc⟩
      · cases h

theorem getOrchInfo_done (o : orchestratorPool) (caps : CapabilityComparator) (l : Bool)
    (a : Arrival) : getOrchInfo o caps l a = ChanEvent.done ↔ a = Arrival.deadline := by
  cases a with
  | deadline => simp [getOrchInfo]
  | reply r =>
    cases r with
    | none => simp [getOrchInfo]
    | some y =>
      simp only [getOrchInfo]
      split <;> simp

theorem isCompatible_true (o : orchestratorPool) (caps : CapabilityComparator) (l : Bool)
    (x : OrchestratorInfo) (h : isCompatible o caps l x = true) :
    (∀ pred, o.pred = some pred → pred x = true) ∧
      ((x.Capabilities = none ∧ l = true) ∨
        ∃ adv, x.Capabilities = some adv ∧ caps.CompatibleWith adv = true) := by
  unfold isCompatible at h
  split at h
  · cases h
  · rename_i hp
    constructor
    · intro pred hpred
      unfold predRejects at hp
      rw [hpred] at hp
      simpa using hp
    · cases hcap : x.Capabilities with
      | none =>
        rw [hcap] at h
        simp only at h
        left
        refine ⟨rfl, ?_⟩
        cases l with
        | true => rfl
        | false => simp at h
      | some adv =>
        rw [hcap] at h
        exact Or.inr ⟨adv, rfl, h⟩

theorem collected_inv (o : orchestratorPool) (count : Int) (suspender : String → Int)
    (caps : CapabilityComparator) (arrivals : Nat → Arrival) :
    CollectInv suspender (fun i => getOrchInfo o caps caps.LegacyOnly (arrivals i))
      (collected o count suspender caps arrivals) :=
  collectLoop_inv _ _ _ _ _ _ (collectInv_init _ _)

theorem collected_bounds (o : orchestratorPool) (count : Int) (suspender : String → Int)
    (caps : CapabilityComparator) (arrivals : Nat → Arrival) :
    (collected o count suspender caps arrivals).i ≤ o.uris.length ∧
      ((collected o count suspender caps arrivals).infos.length : Int)
        ≤ max (clampCount o.uris.length count) 0 :=
  collectLoop_bounds _ _ _ _ _ _ (Nat.zero_le _) (by simp)

theorem getOrchestrators_fst (o : orchestratorPool) (count : Int) (suspender : String → Int)
    (caps : CapabilityComparator) (arrivals : Nat → Arrival) :
    (GetOrchestrators o count suspender caps arrivals).1 =
      (collected o count suspender caps arrivals).infos ++
        ((collected o count suspender caps arrivals).suspendedInfos.take
          (clampCount o.uris.length count
            - (collected o count suspender caps arrivals).infos.length).toNat).map
          suspension.orch := by
  unfold GetOrchestrators
  simp only
  split
  · exact topUpLoop_eq _ _ _
  · rename_i h
    have : (clampCount o.uris.length count
        - ((collected o count suspender caps arrivals).infos.length : Int)).toNat = 0 := by
      omega
    rw [this]
    simp

theorem getOrchestrators_length_le (o : orchestratorPool) (count : Int)
    (suspender : String → Int) (caps : CapabilityComparator) (arrivals : Nat → Arrival) :
    (GetOrchestrators o count suspender caps arrivals).1.length
      ≤ (clampCount o.uris.length count).toNat := by
  rw [getOrchestrators_fst, List.length_append, List.length_map, List.length_take]
  have := (collected_bounds o count suspender caps arrivals).2
  omega

theorem mem_getOrchestrators (o : orchestratorPool) (count : Int) (suspender : String → Int)
    (caps : CapabilityComparator) (arrivals : Nat → Arrival) (x : OrchestratorInfo)
    (hx : x ∈ (GetOrchestrators o count suspender caps arrivals).1) :
    ∃ k, k < (collected o count suspender caps arrivals).i ∧
      getOrchInfo o caps caps.LegacyOnly (arrivals k) = ChanEvent.info x := by
  obtain ⟨h1, h2, _⟩ := collected_inv o count suspender caps arrivals
  rw [getOrchestrators_fst, List.mem_append] at hx
  rcases hx with hx | hx
  · rw [h1, mem_accepted, mem_consumed] at hx
    exact hx.1
  · rw [List.mem_map] at hx
    obtain ⟨s, hs, rfl⟩ := hx
    have hq := List.mem_of_mem_take hs
    rw [h2, queueOf_mem, mem_deferred, mem_consumed] at hq
    exact hq.1

theorem comparator_legacyOnly (required : Option Capabilities) :
    (Capabilities.comparator required).LegacyOnly = true ↔
      Capabilities.LegacyOnly required = some true := by
  show (Capabilities.LegacyOnly required).getD false = true ↔ _
  cases Capabilities.LegacyOnly required with
  | none => simp
  | some b => simp

theorem comparator_compatibleWith (required : Option Capabilities) (adv : NetCapabilities) :
    (Capabilities.comparator required).CompatibleWith adv = true ↔
      Capabilities.CompatibleWith required (some adv) = some true := by
  show (Capabilities.CompatibleWith required (some adv)).getD false = true ↔ _
  cases Capabilities.CompatibleWith required (some adv) with
  | none => simp
  | some b => simp

/-- C11: `GetOrchestrators` returns a nil error and a list of at most
`min(count, n)` nodes, `n` being the number of addresses of the pool, for every
count, every suspender, every comparator and every sequence of arrivals; the
list is empty when the count is not positive or the pool has no address. -/
theorem getOrchestrators_bounded (o : orchestratorPool) (count : Int)
    (suspender : String → Int) (caps : CapabilityComparator) (arrivals : Nat → Arrival) :
    (GetOrchestrators o count suspender caps arrivals).2 = none ∧
    (GetOrchestrators o count suspender caps arrivals).1.length
      ≤ (min count (o.uris.length : Int)).toNat ∧
    (0 ≤ count →
      ((GetOrchestrators o count suspender caps arrivals).1.length : Int)
        ≤ min count (o.uris.length : Int)) ∧
    (count ≤ 0 → (GetOrchestrators o count suspender caps arrivals).1 = []) ∧
    (o.uris = [] → (GetOrchestrators o count suspender caps arrivals).1 = []) := by
  have h := getOrchestrators_length_le o count suspender caps arrivals
  unfold clampCount at h
  refine ⟨rfl, ?_, ?_, ?_, ?_⟩
  · omega
  · intro h0
    omega
  · intro h0
    apply List.eq_nil_of_length_eq_zero
    omega
  · intro h0
    apply List.eq_nil_of_length_eq_zero
    rw [h0] at h
    simp only [List.length_nil] at h
    omega

theorem getOrchestrators_bounded_witness :
    (GetOrchestrators ⟨["u1", "u2"], none⟩ 0 (fun _ => 0) ⟨fun _ => true, true⟩
      (arrivalsOf [Arrival.reply (some ⟨"a", none⟩)])).1 = [] :=
  (getOrchestrators_bounded ⟨["u1", "u2"], none⟩ 0 (fun _ => 0) ⟨fun _ => true, true⟩
    (arrivalsOf [Arrival.reply (some ⟨"a", none⟩)])).2.2.2.1 (by decide)

/-- C12: every node that `GetOrchestrators` returns arrived from a call that
returned it without error, and `isCompatible` holds of it: the predicate of the
pool, when set, accepts it, and either it carries no advertisement and the
required capabilities are legacy-only, or it carries one and the required
capabilities are compatible with it; for the comparator of a
`*core.Capabilities` these are its `LegacyOnly` and `CompatibleWith`. -/
theorem getOrchestrators_compatible (o : orchestratorPool) (count : Int)
    (suspender : String → Int) (caps : CapabilityComparator) (arrivals : Nat → Arrival)
    (x : OrchestratorInfo) (hx : x ∈ (GetOrchestrators o count suspender caps arrivals).1) :
    (∃ k, k < o.uris.length ∧ arrivals k = Arrival.reply (some x)) ∧
    isCompatible o caps caps.LegacyOnly x = true ∧
    (∀ pred, o.pred = some pred → pred x = true) ∧
    ((x.Capabilities = none ∧ caps.LegacyOnly = true) ∨
      ∃ adv, x.Capabilities = some adv ∧ caps.CompatibleWith adv = true) ∧
    (∀ required : Option Capabilities, caps = Capabilities.comparator required →
      ((x.Capabilities = none ∧ Capabilities.LegacyOnly required = some true) ∨
        ∃ adv, x.Capabilities = some adv ∧
          Capabilities.CompatibleWith required (some adv) = some true)) := by
  obtain ⟨k, hk, hev⟩ := mem_getOrchestrators o count suspender caps arrivals x hx
  obtain ⟨ha, hc⟩ := getOrchInfo_info o caps caps.LegacyOnly (arrivals k) x hev
  obtain ⟨hp, hcl⟩ := isCompatible_true o caps caps.LegacyOnly x hc
  have hb := (collected_bounds o count suspender caps arrivals).1
  refine ⟨⟨k, by omega, ha⟩, hc, hp, hcl, ?_⟩
  intro required hreq
  rcases hcl with ⟨h1, h2⟩ | ⟨adv, h1, h2⟩
  · rw [hreq, comparator_legacyOnly] at h2
    exact Or.inl ⟨h1, h2⟩
  · rw [hreq, comparator_compatibleWith] at h2
    exact Or.inr ⟨adv, h1, h2⟩

theorem getOrchestrators_compatible_witness :
    (⟨"b", some ⟨[3]⟩⟩ : OrchestratorInfo).Capabilities = none
        ∧ Capabilities.LegacyOnly (some (NewCapabilities [0, 1])) = some true ∨
      ∃ adv, (⟨"b", some ⟨[3]⟩⟩ : OrchestratorInfo).Capabilities = some adv ∧
        Capabilities.CompatibleWith (some (NewCapabilities [0, 1])) (some adv) = some true :=
  (getOrchestrators_compatible ⟨["u1", "u2", "u3"], none⟩ 2 (fun _ => 0)
    (Capabilities.comparator (some (NewCapabilities [0, 1])))
    (arrivalsOf [Arrival.reply (some ⟨"a", some ⟨[1]⟩⟩), Arrival.reply (some ⟨"b", some ⟨[3]⟩⟩)])
    ⟨"b", some ⟨[3]⟩⟩ (by decide)).2.2.2.2 (some (NewCapabilities [0, 1])) rfl

theorem queue_entry (o : orchestratorPool) (count : Int) (suspender : String → Int)
    (caps : CapabilityComparator) (arrivals : Nat → Arrival) (s : suspension)
    (hs : s ∈ (collected o count suspender caps arrivals).suspendedInfos) :
    s.penalty = suspender s.orch.Transcoder ∧ suspender s.orch.Transcoder ≠ 0 := by
  obtain ⟨_, h2, _⟩ := collected_inv o count suspender caps arrivals
  rw [h2, queueOf_mem, mem_deferred] at hs
  exact ⟨hs.2.2, hs.2.1⟩

theorem queue_sorted (o : orchestratorPool) (count : Int) (suspender : String → Int)
    (caps : CapabilityComparator) (arrivals : Nat → Arrival) :
    (collected o count suspender caps arrivals).suspendedInfos.Pairwise
      (fun a b => a.penalty ≤ b.penalty) := by
  obtain ⟨_, h2, _⟩ := collected_inv o count suspender caps arrivals
  rw [h2]
  exact queueOf_sorted _

theorem popped_sorted (o : orchestratorPool) (count : Int) (suspender : String → Int)
    (caps : CapabilityComparator) (arrivals : Nat → Arrival) :
    (popped o count suspender caps arrivals).Pairwise (fun a b => a.penalty ≤ b.penalty) :=
  (queue_sorted o count suspender caps arrivals).sublist (List.take_sublist _ _)

theorem popped_le_unpopped (o : orchestratorPool) (count : Int) (suspender : String → Int)
    (caps : CapabilityComparator) (arrivals : Nat → Arrival) :
    ∀ x ∈ popped o count suspender caps arrivals,
      ∀ y ∈ unpopped o count suspender caps arrivals, x.penalty ≤ y.penalty := by
  have h := queue_sorted o count suspender caps arrivals
  rw [← List.take_append_drop
    (clampCount o.uris.length count
      - (collected o count suspender caps arrivals).infos.length).toNat
    (collected o count suspender caps arrivals).suspendedInfos, List.pairwise_append] at h
  exact h.2.2

/-- C13: the list that `GetOrchestrators` returns is the nodes received with a
zero penalty during the collection loop, in the order of their reception,
followed by nodes of non-zero penalty in ascending order of penalty; no node of
non-zero penalty precedes a node of zero penalty. -/
theorem getOrchestrators_ordered (o : orchestratorPool) (count : Int)
    (suspender : String → Int) (caps : CapabilityComparator) (arrivals : Nat → Arrival) :
    (GetOrchestrators o count suspender caps arrivals).1 =
      accepted suspender
        (consumed (fun i => getOrchInfo o caps caps.LegacyOnly (arrivals i))
          (collected o count suspender caps arrivals).i)
      ++ (popped o count suspender caps arrivals).map suspension.orch ∧
    (∀ z ∈ accepted suspender
        (consumed (fun i => getOrchInfo o caps caps.LegacyOnly (arrivals i))
          (collected o count suspender caps arrivals).i),
      suspender z.Transcoder = 0) ∧
    (∀ p ∈ (popped o count suspender caps arrivals).map suspension.orch,
      suspender p.Transcoder ≠ 0) ∧
    ((popped o count suspender caps arrivals).map suspension.orch).Pairwise
      (fun a b => suspender a.Transcoder ≤ suspender b.Transcoder) ∧
    (GetOrchestrators o count suspender caps arrivals).1.Pairwise
      (fun a b => suspender a.Transcoder ≠ 0 → suspender b.Transcoder ≠ 0) := by
  obtain ⟨h1, _, _⟩ := collected_inv o count suspender caps arrivals
  have hz : ∀ z ∈ accepted suspender
      (consumed (fun i => getOrchInfo o caps caps.LegacyOnly (arrivals i))
        (collected o count suspender caps arrivals).i), suspender z.Transcoder = 0 :=
    fun z hz => ((mem_accepted _ _ _).1 hz).2
  have hp : ∀ p ∈ (popped o count suspender caps arrivals).map suspension.orch,
      suspender p.Transcoder ≠ 0 := by
    intro p hp
    rw [List.mem_map] at hp
    obtain ⟨s, hs, rfl⟩ := hp
    exact (queue_entry o count suspender caps arrivals s (List.mem_of_mem_take hs)).2
  have heq : (GetOrchestrators o count suspender caps arrivals).1 =
      accepted suspender
        (consumed (fun i => getOrchInfo o caps caps.LegacyOnly (arrivals i))
          (collected o count suspender caps arrivals).i)
      ++ (popped o count suspender caps arrivals).map suspension.orch := by
    rw [getOrchestrators_fst, ← h1]
    rfl
  refine ⟨heq, hz, hp, ?_, ?_⟩
  · rw [List.pairwise_map]
    refine (popped_sorted o count suspender caps arrivals).imp_of_mem ?_
    intro a b ha hb hab
    rw [← (queue_entry o count suspender caps arrivals a (List.mem_of_mem_take ha)).1,
      ← (queue_entry o count suspender caps arrivals b (List.mem_of_mem_take hb)).1]
    exact hab
  · rw [heq, List.pairwise_append]
    refine ⟨?_, ?_, ?_⟩
    · rw [List.pairwise_iff_forall_sublist]
      intro a b hab ha
      exact absurd (hz a (hab.subset (List.mem_cons_self _ _))) ha
    · rw [List.pairwise_iff_forall_sublist]
      intro a b hab _
      exact hp b (hab.subset (List.mem_cons_of_mem _ (List.mem_singleton_self _)))
    · intro a ha b _ hna
      exact absurd (hz a ha) hna

/-- C14: when the collection loop ends with fewer accepted nodes than the
clamped count, the result is the accepted nodes followed by the entries popped
off the queue; it holds `min(c, z + s)` nodes, `z` being the number of accepted
nodes, `s` the length of the queue and `c` the clamped count; the `min(c - z, s)`
popped entries are in ascending order of penalty and none of them has a higher
penalty than an entry left in the queue. With count 3 and four compatible
responses of penalties 5, 0, 2 and 7, the result is the second node, the third
and the first. -/
theorem getOrchestrators_topUp (o : orchestratorPool) (count : Int)
    (suspender : String → Int) (caps : CapabilityComparator) (arrivals : Nat → Arrival)
    (hz : ((collected o count suspender caps arrivals).infos.length : Int)
      < clampCount o.uris.length count) :
    (GetOrchestrators o count suspender caps arrivals).1 =
      (collected o count suspender caps arrivals).infos
        ++ (popped o count suspender caps arrivals).map suspension.orch ∧
    ((GetOrchestrators o count suspender caps arrivals).1.length : Int) =
      min (clampCount o.uris.length count)
        ((collected o count suspender caps arrivals).infos.length
          + (collected o count suspender caps arrivals).suspendedInfos.Len) ∧
    ((popped o count suspender caps arrivals).length : Int) =
      min (clampCount o.uris.length count
          - (collected o count suspender caps arrivals).infos.length)
        (collected o count suspender caps arrivals).suspendedInfos.Len ∧
    (collected o count suspender caps arrivals).suspendedInfos =
      popped o count suspender caps arrivals ++ unpopped o count suspender caps arrivals ∧
    (popped o count suspender caps arrivals).Pairwise (fun a b => a.penalty ≤ b.penalty) ∧
    (∀ x ∈ popped o count suspender caps arrivals,
      ∀ y ∈ unpopped o count suspender caps arrivals, x.penalty ≤ y.penalty) ∧
    (∀ s ∈ (collected o count suspender caps arrivals).suspendedInfos,
      s.penalty = suspender s.orch.Transcoder ∧ suspender s.orch.Transcoder ≠ 0) ∧
    (GetOrchestrators ⟨["u1", "u2", "u3", "u4"], none⟩ 3
      (fun t => if t = "a" then 5 else if t = "b" then 0 else if t = "c" then 2 else 7)
      ⟨fun _ => true, true⟩
      (arrivalsOf [Arrival.reply (some ⟨"a", none⟩), Arrival.reply (some ⟨"b", none⟩),
        Arrival.reply (some ⟨"c", none⟩), Arrival.reply (some ⟨"d", none⟩)])).1
      = [⟨"b", none⟩, ⟨"c", none⟩, ⟨"a", none⟩] := by
  have hlen : (popped o count suspender caps arrivals).length =
      min (clampCount o.uris.length count
          - (collected o count suspender caps arrivals).infos.length).toNat
        (collected o count suspender caps arrivals).suspendedInfos.length := by
    unfold popped
    rw [List.length_take]
  refine ⟨getOrchestrators_fst o count suspender caps arrivals, ?_, ?_, ?_,
    popped_sorted o count suspender caps arrivals,
    popped_le_unpopped o count suspender caps arrivals,
    fun s hs => queue_entry o count suspender caps arrivals s hs, by decide⟩
  · rw [getOrchestrators_fst, List.length_append, List.length_map]
    show (((collected o count suspender caps arrivals).infos.length
      + (popped o count suspender caps arrivals).length : Nat) : Int) = _
    rw [hlen]
    unfold suspensionQueue.Len
    omega
  · rw [hlen]
    unfold suspensionQueue.Len
    omega
  · unfold popped unpopped
    rw [List.take_append_drop]

theorem getOrchestrators_topUp_witness :
    ((GetOrchestrators ⟨["u1", "u2", "u3"], none⟩ 2
      (fun t => if t = "a" then 5 else if t = "b" then 0 else 2)
      ⟨fun _ => true, true⟩
      (arrivalsOf [Arrival.reply (some ⟨"a", none⟩), Arrival.reply none,
        Arrival.reply (some ⟨"c", none⟩)])).1.length : Int) = 2 :=
  (getOrchestrators_topUp ⟨["u1", "u2", "u3"], none⟩ 2
    (fun t => if t = "a" then 5 else if t = "b" then 0 else 2)
    ⟨fun _ => true, true⟩
    (arrivalsOf [Arrival.reply (some ⟨"a", none⟩), Arrival.reply none,
      Arrival.reply (some ⟨"c", none⟩)]) (by decide)).2.1

/-- C15: the collection loop of `GetOrchestrators` makes at most `n` iterations,
`n` being the number of addresses; it ends with the accepted count at the
clamped count, or all `n` calls reported, or the deadline received, and before
each of its iterations none of the three held; the deadline, when it is
received, is the last arrival the loop consumes. With count 3 over 5 addresses,
two incompatible responses, two compatible ones of zero penalty and then the
deadline, the result has exactly 2 entries. -/
theorem collect_stops (o : orchestratorPool) (count : Int)
    (suspender : String → Int) (caps : CapabilityComparator) (arrivals : Nat → Arrival) :
    (collected o count suspender caps arrivals).i ≤ o.uris.length ∧
    ((collected o count suspender caps arrivals).nbResp = o.uris.length ∨
      clampCount o.uris.length count
        ≤ (collected o count suspender caps arrivals).infos.length ∨
      (collected o count suspender caps arrivals).timeout = true) ∧
    (∀ k, k < (collected o count suspender caps arrivals).i →
      (collectedAt o count suspender caps arrivals k).i = k ∧
      (collectedAt o count suspender caps arrivals k).nbResp < o.uris.length ∧
      ((collectedAt o count suspender caps arrivals k).infos.length : Int)
        < clampCount o.uris.length count ∧
      (collectedAt o count suspender caps arrivals k).timeout = false) ∧
    (collected o count suspender caps arrivals).i =
      (collected o count suspender caps arrivals).nbResp
        + (if (collected o count suspender caps arrivals).timeout then 1 else 0) ∧
    (∀ k, k + 1 < (collected o count suspender caps arrivals).i →
      arrivals k ≠ Arrival.deadline) ∧
    ((collected o count suspender caps arrivals).timeout = true →
      arrivals ((collected o count suspender caps arrivals).i - 1) = Arrival.deadline) ∧
    ((collected o count suspender caps arrivals).timeout = false →
      ∀ k, k < (collected o count suspender caps arrivals).i →
        arrivals k ≠ Arrival.deadline) ∧
    (GetOrchestrators ⟨["u1", "u2", "u3", "u4", "u5"], none⟩ 3 (fun _ => 0)
      (Capabilities.comparator (some (NewCapabilities [0, 1])))
      (arrivalsOf [Arrival.reply (some ⟨"a", some ⟨[1]⟩⟩), Arrival.reply (some ⟨"b", none⟩),
        Arrival.reply (some ⟨"c", some ⟨[2]⟩⟩), Arrival.reply (some ⟨"d", some ⟨[7]⟩⟩),
        Arrival.deadline, Arrival.reply (some ⟨"e", none⟩)])).1
      = [⟨"b", none⟩, ⟨"d", some ⟨[7]⟩⟩] := by
  obtain ⟨_, _, h3, h4, h5, h6⟩ := collected_inv o count suspender caps arrivals
  have hb := (collected_bounds o count suspender caps arrivals).1
  have hdone : ¬ collectCond o.uris.length (clampCount o.uris.length count)
      (collected o count suspender caps arrivals) :=
    collectLoop_done _ _ _ _ _ _ (by simp)
  refine ⟨hb, ?_, ?_, h3, ?_, ?_, ?_, by decide⟩
  · by_cases ht : (collected o count suspender caps arrivals).timeout = true
    · exact Or.inr (Or.inr ht)
    · have ht2 : (collected o count suspender caps arrivals).timeout = false := by
        simpa using ht
      by_cases hl : clampCount o.uris.length count
          ≤ (collected o count suspender caps arrivals).infos.length
      · exact Or.inr (Or.inl hl)
      · left
        rw [ht2] at h3
        simp only [Bool.false_eq_true, if_false, Nat.add_zero] at h3
        have : ¬ (collected o count suspender caps arrivals).i < o.uris.length := by
          intro hi
          exact hdone ⟨hi, by omega, ht2⟩
        omega
  · intro k hk
    have hc : collectCond o.uris.length (clampCount o.uris.length count)
        (collectedAt o count suspender caps arrivals k) :=
      collectLoop_cond_before _ _ _ _ o.uris.length k _ (by simpa using hk)
    have hi : (collectedAt o count suspender caps arrivals k).i = k := by
      have := collectLoop_i_eq o.uris.length (clampCount o.uris.length count) suspender
        (fun i => getOrchInfo o caps caps.LegacyOnly (arrivals i)) o.uris.length k
        ⟨0, [], newSuspensionQueue, 0, false⟩ (by simpa using Nat.le_of_lt hk)
      simpa using this
    have hinv : CollectInv suspender (fun i => getOrchInfo o caps caps.LegacyOnly (arrivals i))
        (collectedAt o count suspender caps arrivals k) :=
      collectLoop_inv _ _ _ _ _ _ (collectInv_init _ _)
    obtain ⟨h1, h2, h3⟩ := hc
    have hn := hinv.2.2.1
    rw [h3] at hn
    simp only [Bool.false_eq_true, if_false, Nat.add_zero] at hn
    exact ⟨hi, by omega, h2, h3⟩
  · intro k hk hd
    exact h4 k hk ((getOrchInfo_done o caps caps.LegacyOnly (arrivals k)).2 hd)
  · intro ht
    exact (getOrchInfo_done o caps caps.LegacyOnly _).1 (h6 ht).2
  · intro ht k hk hd
    exact h5 ht k hk ((getOrchInfo_done o caps caps.LegacyOnly (arrivals k)).2 hd)

theorem collect_stops_witness :
    (collectedAt ⟨["u1", "u2", "u3"], none⟩ 2 (fun _ => 0) ⟨fun _ => true, true⟩
      (arrivalsOf [Arrival.reply none, Arrival.reply (some ⟨"a", none⟩), Arrival.deadline])
      2).timeout = false :=
  ((collect_stops ⟨["u1", "u2", "u3"], none⟩ 2 (fun _ => 0) ⟨fun _ => true, true⟩
    (arrivalsOf [Arrival.reply none, Arrival.reply (some ⟨"a", none⟩), Arrival.deadline])).2.2.1
    2 (by decide)).2.2.2

/-! ## Order properties of `CompatibleWith` and the legacy baseline -/

theorem land_trans (a b c : Nat) (h1 : a &&& b = a) (h2 : b &&& c = b) : a &&& c = a := by
  calc a &&& c = (a &&& b) &&& c := by rw [h1]
    _ = a &&& (b &&& c) := Nat.land_assoc a b c
    _ = a := by rw [h2, h1]

theorem compat_trans (A B C : CapabilityString)
    (h1 : CapabilityString.CompatibleWith A B = some true)
    (h2 : CapabilityString.CompatibleWith B C = some true) :
    CapabilityString.CompatibleWith A C = some true := by
  rw [compatibleWith_true_iff_words] at h1 h2 ⊢
  refine ⟨le_trans h1.1 h2.1, ?_⟩
  intro k hk
  exact land_trans _ _ _ (h1.2 k hk) (h2.2 k (lt_of_lt_of_le hk h1.1))

theorem getD_eq_getElem_of_lt (s : List Nat) (i : Nat) (h : i < s.length) : s.getD i 0 = s[i] := by
  rw [List.getD_eq_getElem?_getD, List.getElem?_eq_getElem h, Option.getD_some]

theorem compat_antisymm (A B : CapabilityString)
    (h1 : CapabilityString.CompatibleWith A B = some true)
    (h2 : CapabilityString.CompatibleWith B A = some true) : A = B := by
  rw [compatibleWith_true_iff_words] at h1 h2
  have hlen : A.length = B.length := le_antisymm h1.1 h2.1
  apply List.ext_getElem hlen
  intro n hA hB
  have e1 := h1.2 n hA
  have e2 := h2.2 n hB
  rw [getD_eq_getElem_of_lt A n hA, getD_eq_getElem_of_lt B n hB] at e1 e2
  rw [← e1, Nat.land_comm]
  exact e2

theorem requiredIds_legacy (params : StreamParameters) (c : Int) (hc : c ∈ requiredIds params) :
    c ∈ legacyCapabilities := by
  rw [mem_legacy_iff]
  unfold requiredIds at hc
  simp only [List.mem_append, List.mem_singleton, List.mem_map] at hc
  rcases hc with ((h | ⟨v, _, h⟩) | h) | h
  · rw [h]
    decide
  · rw [← h]
    unfold formatCapability
    split <;> decide
  · split at h
    · rw [List.mem_singleton.1 h]
      decide
    · cases h
  · unfold storageIds at h
    split at h
    · rw [List.mem_singleton.1 h]
      unfold storageCapability
      split
      · decide
      · split <;> decide
    · cases h

/-- C16: removing requirements never breaks compatibility: when every id of
`C` occurs in `D` and the bitstring of `D` is compatible with a bitstring `X`,
the bitstring of `C` is compatible with `X`. -/
theorem compatible_of_subset (C D : List Capability) (X : CapabilityString)
    (hsub : ∀ c ∈ C, c ∈ D)
    (h : CapabilityString.CompatibleWith (NewCapabilityString D) X = some true) :
    CapabilityString.CompatibleWith (NewCapabilityString C) X = some true :=
  compat_trans _ _ _ ((newCap_compatible_iff C D).2 (fun c hc _ => hsub c hc)) h

theorem compatible_of_subset_witness :
    CapabilityString.CompatibleWith (NewCapabilityString [70, 1]) [7, 64, 9] = some true :=
  compatible_of_subset [70, 1] [1, 2, 70, 0] [7, 64, 9] (by decide) (by decide)

/-- C17: `CompatibleWith` is reflexive, and the empty bitstring is compatible
with every bitstring, the empty one included. -/
theorem compatibleWith_refl_empty (A B : CapabilityString) :
    CapabilityString.CompatibleWith A A = some true ∧
    CapabilityString.CompatibleWith [] B = some true ∧
    CapabilityString.CompatibleWith [] [] = some true := by
  refine ⟨?_, ?_, rfl⟩
  · rw [compatibleWith_true_iff_words]
    exact ⟨le_refl _, fun k _ => Nat.and_self _⟩
  · rw [compatibleWith_true_iff_words]
    exact ⟨Nat.zero_le _, fun k hk => absurd hk (Nat.not_lt_zero k)⟩

/-- C18: `CompatibleWith` returns a boolean on every pair of bitstrings, of any
lengths, without an index out of range (the `none` of the model); it returns
true exactly when the required bitstring is no longer than the advertised one
and `required[i] AND advertised[i] = required[i]` at every index of the
required bitstring, and false otherwise. -/
theorem compatibleWith_total (bcast orch : CapabilityString) :
    (∃ b, CapabilityString.CompatibleWith bcast orch = some b) ∧
    CapabilityString.CompatibleWith bcast orch ≠ none ∧
    (CapabilityString.CompatibleWith bcast orch = some true ↔
      bcast.length ≤ orch.length ∧
        ∀ i (h1 : i < bcast.length) (h2 : i < orch.length),
          bcast[i] &&& orch[i] = bcast[i]) ∧
    (CapabilityString.CompatibleWith bcast orch = some false ↔
      ¬ (bcast.length ≤ orch.length ∧
        ∀ i (h1 : i < bcast.length) (h2 : i < orch.length),
          bcast[i] &&& orch[i] = bcast[i])) := by
  have hiff : CapabilityString.CompatibleWith bcast orch = some true ↔
      bcast.length ≤ orch.length ∧
        ∀ i (h1 : i < bcast.length) (h2 : i < orch.length),
          bcast[i] &&& orch[i] = bcast[i] := by
    rw [compatibleWith_true_iff_words]
    constructor
    · rintro ⟨hl, hw⟩
      refine ⟨hl, ?_⟩
      intro i h1 h2
      have := hw i h1
      rw [getD_eq_getElem_of_lt bcast i h1, getD_eq_getElem_of_lt orch i h2] at this
      exact this
    · rintro ⟨hl, hw⟩
      refine ⟨hl, ?_⟩
      intro i h1
      have h2 : i < orch.length := lt_of_lt_of_le h1 hl
      rw [getD_eq_getElem_of_lt bcast i h1, getD_eq_getElem_of_lt orch i h2]
      exact hw i h1 h2
  obtain ⟨b, hb⟩ := compatibleWith_isSome bcast orch
  refine ⟨⟨b, hb⟩, ?_, hiff, ?_⟩
  · rw [hb]
    exact Option.some_ne_none b
  · rw [← hiff, hb]
    cases b <;> simp

/-- C19: every job that `JobCapabilities` derives is legacy-only, whatever the
order in which the keys of its map are enumerated; so a node without a
capability advertisement that the predicate does not reject is compatible with
such a job. -/
theorem jobCapabilities_legacyOnly (enumerate : List Capability → List Capability)
    (hEnum : ∀ l, (enumerate l).Perm l) (params : StreamParameters) (r : Capabilities)
    (h : JobCapabilities enumerate params = (some r, none)) :
    Capabilities.LegacyOnly (some r) = some true ∧
    (Capabilities.comparator (some r)).LegacyOnly = true ∧
    (∀ (o : orchestratorPool) (info : OrchestratorInfo), predRejects o info = false →
      info.Capabilities = none →
        isCompatible o (Capabilities.comparator (some r))
          (Capabilities.comparator (some r)).LegacyOnly info = true) := by
  obtain ⟨hf, hs⟩ := jobCaps_success_inv enumerate params r h
  have hr : r = NewCapabilities (requiredIds params) := by
    rw [jobCaps_ok_perm enumerate hEnum params hf hs] at h
    cases h
    rfl
  have hl : Capabilities.LegacyOnly (some r) = some true := by
    rw [hr, legacyOnly_new_iff]
    exact fun c hc _ => requiredIds_legacy params c hc
  have hc : (Capabilities.comparator (some r)).LegacyOnly = true := by
    show (Capabilities.LegacyOnly (some r)).getD false = true
    rw [hl]
    rfl
  refine ⟨hl, hc, ?_⟩
  intro o info hp hn
  unfold isCompatible
  rw [hp, hn, hc]
  rfl

theorem jobCapabilities_legacyOnly_witness :
    Capabilities.LegacyOnly (some (NewCapabilities [0, 1, 2, 3, 5])) = some true :=
  (jobCapabilities_legacyOnly List.reverse (fun l => List.reverse_perm l)
    ⟨[⟨FormatMPEGTS, 0⟩, ⟨FormatMP4, 0⟩, ⟨0, 1⟩], some ⟨some ⟨OSInfo_S3⟩⟩⟩
    (NewCapabilities [0, 1, 2, 3, 5]) (by decide)).1

/-- C20: `CompatibleWith` is transitive and antisymmetric on arbitrary
bitstrings. -/
theorem compatibleWith_trans_antisymm (A B C : CapabilityString) :
    (CapabilityString.CompatibleWith A B = some true →
      CapabilityString.CompatibleWith B C = some true →
        CapabilityString.CompatibleWith A C = some true) ∧
    (CapabilityString.CompatibleWith A B = some true →
      CapabilityString.CompatibleWith B A = some true → A = B) :=
  ⟨compat_trans A B C, compat_antisymm A B⟩

theorem compatibleWith_trans_antisymm_witness :
    CapabilityString.CompatibleWith [1, 4] [7, 6, 1] = some true ∧ [5, 2] = [5, 2] :=
  ⟨(compatibleWith_trans_antisymm [1, 4] [3, 4] [7, 6, 1]).1 (by decide) (by decide),
    (compatibleWith_trans_antisymm [5, 2] [5, 2] []).2 (by decide) (by decide)⟩

end Livepeer
